import Mathlib

/-!
Verification of the SARC archive codec (SARC.py): a shallow embedding of the
tree model, the string hash, the encoder (`SARC_Archive.save`) and the decoder
(`SARC_Archive._load`), together with theorems settling the specification
claims about them.

Conventions of the embedding:
* Python `bytes` values are `List Nat` (each element is a byte value).
* Python `str` values are `List Char` (Lean `Char` is exactly a Unicode
  scalar value, matching the strings Python can UTF-8-encode).
* Machine integers are `Nat` with explicit masking (`&&& 0xFFFFFFFF`,
  `% 2 ^ 32`) where the source masks or packs.
* `struct.pack`/`struct.unpack` become `packU16`/`packU32` and
  `unpack2`/`unpack4`; unpacking a slice of the wrong length raises
  `struct.error` in Python, modelled by `Option` (`none` = exception).
* Python `set` containers become `List` with `add` = append; iteration
  order of a Python set is arbitrary, and every property proved here is
  insensitive to that order.
-/

namespace SARC

set_option maxRecDepth 16384

/-- Byte strings: Python `bytes` as a list of byte values. -/
abbrev Bytes := List Nat

/-- The two endianness settings, Python `'>'` and `'<'`. -/
inductive Endian where
  | big
  | little
deriving DecidableEq

/-- Python `data[i:j]` for `0 ≤ i ≤ j` (slices truncate at the end). -/
def slice (data : Bytes) (i j : Nat) : Bytes :=
  (data.drop i).take (j - i)

/-- `struct.pack(e + 'H', n)`: two bytes of `n % 2^16` in the given order. -/
def packU16 (e : Endian) (n : Nat) : Bytes :=
  match e with
  | .big => [n / 0x100 % 0x100, n % 0x100]
  | .little => [n % 0x100, n / 0x100 % 0x100]

/-- `struct.pack(e + 'I', n)`: four bytes of `n % 2^32` in the given order. -/
def packU32 (e : Endian) (n : Nat) : Bytes :=
  match e with
  | .big => [n / 0x1000000 % 0x100, n / 0x10000 % 0x100, n / 0x100 % 0x100, n % 0x100]
  | .little => [n % 0x100, n / 0x100 % 0x100, n / 0x10000 % 0x100, n / 0x1000000 % 0x100]

/-- `struct.unpack(e + 'H', b)[0]`; `none` models the `struct.error` raised
when `b` does not have exactly two bytes. -/
def unpack2 (e : Endian) (b : Bytes) : Option Nat :=
  match e, b with
  | .big, [a, b] => some (a * 0x100 + b)
  | .little, [a, b] => some (b * 0x100 + a)
  | _, _ => none

/-- `struct.unpack(e + 'I', b)[0]`; `none` models the `struct.error` raised
when `b` does not have exactly four bytes. -/
def unpack4 (e : Endian) (b : Bytes) : Option Nat :=
  match e, b with
  | .big, [a, b, c, d] => some (((a * 0x100 + b) * 0x100 + c) * 0x100 + d)
  | .little, [a, b, c, d] => some (((d * 0x100 + c) * 0x100 + b) * 0x100 + a)
  | _, _ => none

theorem packU16_length (e : Endian) (n : Nat) : (packU16 e n).length = 2 := by
  cases e <;> rfl

theorem packU32_length (e : Endian) (n : Nat) : (packU32 e n).length = 4 := by
  cases e <;> rfl

theorem unpack2_packU16 (e : Endian) (n : Nat) :
    unpack2 e (packU16 e n) = some (n % 0x10000) := by
  cases e <;> simp [unpack2, packU16] <;> omega

theorem unpack4_packU32 (e : Endian) (n : Nat) :
    unpack4 e (packU32 e n) = some (n % 0x100000000) := by
  cases e <;> simp [unpack4, packU32] <;> omega

/-- The local helper `round_up(x, y)` of `SARC_Archive.save`:
`((x - 1) | (y - 1)) + 1`, with the Python result `0` at `x = 0`
(there `(x - 1)` is `-1`, whose `or` with any mask is `-1`). -/
def round_up (x y : Nat) : Nat :=
  if x = 0 then 0 else ((x - 1) ||| (y - 1)) + 1

/-- The alignment-derivation loop of `save`, with explicit fuel (the source
runs `while alignment == 0`, shifting the mask `0xF0` one more bit each
iteration; 64 iterations cover every offset below `2 ^ 68`). -/
def alignLoop (off : Nat) : Nat → Nat → Nat
  | _, 0 => 0
  | numZeros, fuel + 1 =>
    let alignment := off &&& (0xF0 <<< numZeros)
    if alignment = 0 then alignLoop off (numZeros + 1) fuel else alignment

/-- The payload alignment `save` derives from the effective data-start
offset: `off & 0xF0`, or, while that is zero, `off & (0xF0 << numZeros)`
for growing `numZeros`. -/
def alignOf (off : Nat) : Nat :=
  let alignment := off &&& 0xF0
  if alignment = 0 then alignLoop off 1 64 else alignment

/-- `SARC_Archive.filenameHash` without the final `struct.pack`: iterate the
characters, `result = result * multiplier + ord(char)` masked to 32 bits. -/
def filenameHash (filename : List Char) (multiplier : Nat) : Nat :=
  filename.foldl (fun result c => (result * multiplier + c.toNat) &&& 0xFFFFFFFF) 0

/-- `SARC_Archive.filenameHash` as in the source: the packed 32-bit hash. -/
def filenameHashBytes (filename : List Char) (e : Endian) (multiplier : Nat) : Bytes :=
  packU32 e (filenameHash filename multiplier)

/-- The hash recurrence exactly as the specification words it:
`result = (result * multiplier + code_point(char)) mod 2^32`, from 0. -/
def hashSpec (filename : List Char) (multiplier : Nat) : Nat :=
  filename.foldl (fun result c => (result * multiplier + c.toNat) % (2 ^ 32)) 0

theorem and_mask32_eq_mod (n : Nat) : n &&& 0xFFFFFFFF = n % 2 ^ 32 := by
  have h : (0xFFFFFFFF : Nat) = 2 ^ 32 - 1 := by norm_num
  rw [h, Nat.and_pow_two_sub_one_eq_mod]

/-- Claim C5: the SFAT hash is the pure total function iterating the name's
characters with `result = (result * multiplier + code_point(char)) mod 2^32`
from 0; it is deterministic, and the hash of `"a"` with multiplier `0x65`
is `0x61`. -/
theorem filenameHash_spec :
    (∀ (name : List Char) (m : Nat), filenameHash name m = hashSpec name m) ∧
    (∀ (n₁ n₂ : List Char) (m₁ m₂ : Nat), n₁ = n₂ → m₁ = m₂ →
      filenameHash n₁ m₁ = filenameHash n₂ m₂) ∧
    filenameHash ['a'] 0x65 = 0x61 := by
  refine ⟨fun name m => ?_, fun n₁ n₂ m₁ m₂ h₁ h₂ => by rw [h₁, h₂], by decide⟩
  unfold filenameHash hashSpec
  induction name using List.reverseRecOn with
  | nil => rfl
  | append_singleton cs c ih => simp only [List.foldl_append, List.foldl_cons,
      List.foldl_nil, and_mask32_eq_mod, ih]

/-- Witness for C5 at concrete inputs. -/
theorem filenameHash_spec_witness :
    filenameHash ['a', 'b'] 7 = hashSpec ['a', 'b'] 7 ∧
    filenameHash ['a'] 0x65 = filenameHash ['a'] 0x65 := by
  exact ⟨filenameHash_spec.1 ['a', 'b'] 7,
    filenameHash_spec.2.1 ['a'] ['a'] 0x65 0x65 rfl rfl⟩

/-! ## Tree model -/

/-- `File` and `Folder` objects: a tagged variant over the two classes.
`Folder.contents` (a Python `set`) is a list; `set.add` appends. -/
inductive Entry where
  | file (name : List Char) (data : List Nat)
  | folder (name : List Char) (contents : List Entry)

/-- The `name` attribute common to `File` and `Folder`. -/
def entryName : Entry → List Char
  | .file n _ => n
  | .folder n _ => n

/-- `SARC_Archive` state: `contents`, `endianness`, `hashMultiplier`. -/
structure Archive where
  contents : List Entry
  endianness : Endian
  hashMultiplier : Nat

/-- A fresh `SARC_Archive()`: empty contents, big-endian, multiplier `0x65`. -/
def freshArchive : Archive :=
  { contents := [], endianness := .big, hashMultiplier := 0x65 }

/-- `key.replace('\\', '/')`: normalise backslashes to forward slashes
(the source spells it `'/'.join(key.split('\\'))` inside `save`). -/
def normSlash (s : List Char) : List Char :=
  s.map fun c => if c = '\\' then '/' else c

/-- Python `str.split('/')`: always at least one (possibly empty) segment. -/
def splitSlash : List Char → List (List Char)
  | [] => [[]]
  | c :: cs =>
    if c = '/' then [] :: splitSlash cs
    else
      match splitSlash cs with
      | s :: r => (c :: s) :: r
      | [] => [[c]]

/-- Join path segments with `'/'`: the full slash-delimited path of a file
whose ancestor folders carry the other segments. -/
def joinPath : List (List Char) → List Char
  | [] => []
  | [s] => s
  | s :: rest => s ++ '/' :: joinPath rest

/-- Search a container for the first `Folder` with the given name and
return its contents (the `for ... if isinstance(lookObj, Folder)` loops). -/
def findFolder : List Entry → List Char → Option (List Entry)
  | [], _ => none
  | .folder m sub :: es, n => if m = n then some sub else findFolder es n
  | .file _ _ :: es, n => findFolder es n

/-- Walk down a list of folder names, failing when one is missing. -/
def navigate : List (List Char) → List Entry → Option (List Entry)
  | [], cs => some cs
  | n :: rest, cs => (findFolder cs n).bind (navigate rest)

/-- First entry (file or folder) with the given name. -/
def findNamed : List Entry → List Char → Option Entry
  | [], _ => none
  | e :: es, n => if entryName e = n then some e else findNamed es n

/-- `FileArchive.__getitem__`: descend through `folderStructure[:-1]`, then
return the first entry named `folderStructure[-1]`; `none` is `KeyError`. -/
def getItem (cs : List Entry) (key : List Char) : Option Entry :=
  let segs := splitSlash (normSlash key)
  (navigate segs.dropLast cs).bind fun cur => findNamed cur (segs.getLastD [])

/-- Rebuild a container after descending into the first folder named `n`,
creating (appending) that folder when it is absent — the find-or-create
loop body shared by `__setitem__` and the decoder. -/
def modifyFolder (n : List Char) (k : List Entry → List Entry) : List Entry → List Entry
  | [] => [.folder n (k [])]
  | .folder m sub :: es =>
    if m = n then .folder m (k sub) :: es else .folder m sub :: modifyFolder n k es
  | .file m d :: es => .file m d :: modifyFolder n k es

/-- Remove the first entry whose name is `n` (no-op when none matches). -/
def removeFirstNamed (n : List Char) : List Entry → List Entry
  | [] => []
  | e :: es => if entryName e = n then es else e :: removeFirstNamed n es

/-- The final step of `__setitem__`: remove entries whose `name` equals the
full key, then `add` the new value. (The source's removal loop keeps
iterating the mutated set, which would raise `RuntimeError` unless the
removed element was the last one yielded; the removing branch is not
reached in any property proved here.) Note the comparison is against the
whole `key`, not its final segment, and `val`'s own `name` is never
assigned: the source's `File.name = folderStructure[-1]` sets a *class*
attribute, which every instance shadows with the `name` set in
`__init__`, so no instance is affected. -/
def setFinal (key : List Char) (val : Entry) (cs : List Entry) : List Entry :=
  removeFirstNamed key cs ++ [val]

/-- The descent loop of `__setitem__` over `folderStructure[1:]` — note the
source iterates all segments but the *first* (not all but the last). -/
def setItemGo (key : List Char) (val : Entry) : List (List Char) → List Entry → List Entry
  | [], cs => setFinal key val cs
  | n :: rest, cs => modifyFolder n (setItemGo key val rest) cs

/-- `FileArchive.__setitem__` on the archive's contents. -/
def setItem (cs : List Entry) (key : List Char) (val : Entry) : List Entry :=
  setItemGo key val ((splitSlash (normSlash key)).drop 1) cs

/-- Remove the first entry named `n`, failing (`KeyError`) when absent. -/
def removeFirstNamedOpt (n : List Char) : List Entry → Option (List Entry)
  | [] => none
  | e :: es =>
    if entryName e = n then some es
    else (removeFirstNamedOpt n es).map (e :: ·)

/-- Descend into the first folder named `n` and apply `k` there, failing
when the folder is missing. -/
def modifyFolderOpt (n : List Char) (k : List Entry → Option (List Entry)) :
    List Entry → Option (List Entry)
  | [] => none
  | .folder m sub :: es =>
    if m = n then (k sub).map (.folder m · :: es)
    else (modifyFolderOpt n k es).map (.folder m sub :: ·)
  | .file m d :: es => (modifyFolderOpt n k es).map (.file m d :: ·)

/-- The descent loop of `__delitem__` over `folderStructure[1:]` (the same
off-by-one as `__setitem__`), then removal of the first entry whose name
equals the whole key. -/
def delItemGo (key : List Char) : List (List Char) → List Entry → Option (List Entry)
  | [], cs => removeFirstNamedOpt key cs
  | n :: rest, cs => modifyFolderOpt n (delItemGo key rest) cs

/-- `FileArchive.__delitem__` on the archive's contents. -/
def delItem (cs : List Entry) (key : List Char) : Option (List Entry) :=
  delItemGo key ((splitSlash (normSlash key)).drop 1) cs

/-- The tree-insertion logic of `_load` for one resolved name: a bare name
becomes a root file; otherwise find-or-create each folder segment and add
a file carrying the final segment. -/
def insertSegs : List (List Char) → List Nat → List Entry → List Entry
  | [], _, cs => cs
  | [n], d, cs => cs ++ [.file n d]
  | n :: rest, d, cs => modifyFolder n (insertSegs rest d) cs

/-- The full slash-delimited file paths of a tree with their payloads —
the claim-side view both sides of the round trip are compared by. -/
def contentsPaths : List Entry → List (List Char × List Nat)
  | [] => []
  | .file n d :: es => (n, d) :: contentsPaths es
  | .folder n sub :: es =>
      (contentsPaths sub).map (fun pd => (n ++ '/' :: pd.1, pd.2)) ++ contentsPaths es

/-- Name well-formedness for the round trip: no separator (`'/'`, `'\\'`)
and no NUL in any name, and folder names nonempty. -/
def wfName (n : List Char) : Bool :=
  n.all fun c => c ≠ '/' && c ≠ '\\' && c.toNat ≠ 0

/-- Well-formed trees: every name is `wfName` and folder names are
nonempty (an empty top-level folder name makes the source encoder raise
`IndexError` on `path[-1]`). -/
def wfNames : List Entry → Bool
  | [] => true
  | .file n _ :: es => wfName n && wfNames es
  | .folder n sub :: es => (!n.isEmpty) && wfName n && wfNames sub && wfNames es

/-- No two entries of any single folder (or of the root) share a name. -/
def uniqNames : List Entry → Bool
  | [] => true
  | .file n _ :: es => (es.all fun e' => entryName e' ≠ n) && uniqNames es
  | .folder n sub :: es =>
      (es.all fun e' => entryName e' ≠ n) && uniqNames sub && uniqNames es

/-! ## UTF-8

`str.encode('utf-8')` and `bytes.decode('utf-8')` (strict mode, as the
source calls them) over Unicode scalar values. -/

/-- UTF-8 encoding of one Unicode scalar value. -/
def utf8Char (c : Nat) : List Nat :=
  if c < 0x80 then [c]
  else if c < 0x800 then [0xC0 + c / 0x40, 0x80 + c % 0x40]
  else if c < 0x10000 then
    [0xE0 + c / 0x1000, 0x80 + c / 0x40 % 0x40, 0x80 + c % 0x40]
  else
    [0xF0 + c / 0x40000, 0x80 + c / 0x1000 % 0x40, 0x80 + c / 0x40 % 0x40,
      0x80 + c % 0x40]

/-- `str.encode('utf-8')`. -/
def utf8Str (s : List Char) : List Nat :=
  s.flatMap fun c => utf8Char c.toNat

/-- A UTF-8 continuation byte. -/
def utf8Cont (b : Nat) : Bool :=
  0x80 ≤ b && b < 0xC0

/-- `bytes.decode('utf-8')` in strict mode: `none` models
`UnicodeDecodeError` (invalid leads, truncation, overlongs, surrogates,
out-of-range values are all rejected). -/
def utf8Decode : List Nat → Option (List Char)
  | [] => some []
  | b :: bs =>
    if b < 0x80 then (utf8Decode bs).map (Char.ofNat b :: ·)
    else if b < 0xC2 then none
    else
      match bs with
      | [] => none
      | b1 :: bs1 =>
        if b < 0xE0 then
          if utf8Cont b1 then
            (utf8Decode bs1).map (Char.ofNat ((b - 0xC0) * 0x40 + (b1 - 0x80)) :: ·)
          else none
        else
          match bs1 with
          | [] => none
          | b2 :: bs2 =>
            if b < 0xF0 then
              if (if b = 0xE0 then decide (0xA0 ≤ b1) && decide (b1 < 0xC0)
                  else if b = 0xED then decide (0x80 ≤ b1) && decide (b1 < 0xA0)
                  else utf8Cont b1) && utf8Cont b2 then
                (utf8Decode bs2).map
                  (Char.ofNat ((b - 0xE0) * 0x1000 + (b1 - 0x80) * 0x40 + (b2 - 0x80)) :: ·)
              else none
            else
              match bs2 with
              | [] => none
              | b3 :: bs3 =>
                if b < 0xF5 then
                  if (if b = 0xF0 then decide (0x90 ≤ b1) && decide (b1 < 0xC0)
                      else if b = 0xF4 then decide (0x80 ≤ b1) && decide (b1 < 0x90)
                      else utf8Cont b1) && utf8Cont b2 && utf8Cont b3 then
                    (utf8Decode bs3).map
                      (Char.ofNat ((b - 0xF0) * 0x40000 + (b1 - 0x80) * 0x1000 +
                        (b2 - 0x80) * 0x40 + (b3 - 0x80)) :: ·)
                  else none
                else none

theorem utf8Decode_one (b : Nat) (bs : List Nat) (h : b < 0x80) :
    utf8Decode (b :: bs) = (utf8Decode bs).map (Char.ofNat b :: ·) := by
  conv_lhs => rw [utf8Decode.eq_def]
  simp only [if_pos h]

theorem utf8Decode_two (b b1 : Nat) (bs : List Nat) (h2 : 0xC2 ≤ b) (h3 : b < 0xE0)
    (hc : utf8Cont b1 = true) :
    utf8Decode (b :: b1 :: bs) =
      (utf8Decode bs).map (Char.ofNat ((b - 0xC0) * 0x40 + (b1 - 0x80)) :: ·) := by
  conv_lhs => rw [utf8Decode.eq_def]
  simp only [if_neg (by omega : ¬ b < 0x80), if_neg (by omega : ¬ b < 0xC2),
    if_pos h3, hc, if_true]

theorem utf8Decode_three (b b1 b2 : Nat) (bs : List Nat) (h2 : 0xE0 ≤ b) (h3 : b < 0xF0)
    (hc : ((if b = 0xE0 then decide (0xA0 ≤ b1) && decide (b1 < 0xC0)
          else if b = 0xED then decide (0x80 ≤ b1) && decide (b1 < 0xA0)
          else utf8Cont b1) && utf8Cont b2) = true) :
    utf8Decode (b :: b1 :: b2 :: bs) =
      (utf8Decode bs).map
        (Char.ofNat ((b - 0xE0) * 0x1000 + (b1 - 0x80) * 0x40 + (b2 - 0x80)) :: ·) := by
  conv_lhs => rw [utf8Decode.eq_def]
  simp only [if_neg (by omega : ¬ b < 0x80), if_neg (by omega : ¬ b < 0xC2),
    if_neg (by omega : ¬ b < 0xE0), if_pos h3, hc, if_true]

theorem utf8Decode_four (b b1 b2 b3 : Nat) (bs : List Nat) (h2 : 0xF0 ≤ b) (h3 : b < 0xF5)
    (hc : ((if b = 0xF0 then decide (0x90 ≤ b1) && decide (b1 < 0xC0)
          else if b = 0xF4 then decide (0x80 ≤ b1) && decide (b1 < 0x90)
          else utf8Cont b1) && utf8Cont b2 && utf8Cont b3) = true) :
    utf8Decode (b :: b1 :: b2 :: b3 :: bs) =
      (utf8Decode bs).map
        (Char.ofNat ((b - 0xF0) * 0x40000 + (b1 - 0x80) * 0x1000 +
          (b2 - 0x80) * 0x40 + (b3 - 0x80)) :: ·) := by
  conv_lhs => rw [utf8Decode.eq_def]
  simp only [if_neg (by omega : ¬ b < 0x80), if_neg (by omega : ¬ b < 0xC2),
    if_neg (by omega : ¬ b < 0xE0), if_neg (by omega : ¬ b < 0xF0), if_pos h3, hc,
    if_true]

theorem utf8Char_ne_zero (c : Nat) (hc : c ≠ 0) : ∀ b ∈ utf8Char c, b ≠ 0 := by
  intro b hb
  unfold utf8Char at hb
  split at hb
  · simp at hb; omega
  · split at hb
    · simp at hb; omega
    · split at hb
      · simp at hb; omega
      · simp at hb; omega

theorem utf8Str_ne_zero (s : List Char) (hs : ∀ c ∈ s, c.toNat ≠ 0) :
    ∀ b ∈ utf8Str s, b ≠ 0 := by
  intro b hb
  simp only [utf8Str, List.mem_flatMap] at hb
  obtain ⟨c, hc, hbc⟩ := hb
  exact utf8Char_ne_zero c.toNat (hs c hc) b hbc

theorem utf8Decode_utf8Char (c : Char) (rest : List Nat) :
    utf8Decode (utf8Char c.toNat ++ rest) = (utf8Decode rest).map (c :: ·) := by
  have hv : c.toNat < 0xD800 ∨ (0xDFFF < c.toNat ∧ c.toNat < 0x110000) := c.valid
  have hofNat : Char.ofNat c.toNat = c := Char.ofNat_toNat c
  unfold utf8Char
  by_cases h1 : c.toNat < 0x80
  · rw [if_pos h1]
    simp only [List.cons_append, List.nil_append]
    rw [utf8Decode_one _ _ h1, hofNat]
  · rw [if_neg h1]
    by_cases h2 : c.toNat < 0x800
    · rw [if_pos h2]
      simp only [List.cons_append, List.nil_append]
      rw [utf8Decode_two _ _ _ (by omega) (by omega)
        (by simp only [utf8Cont, Bool.and_eq_true, decide_eq_true_eq]; omega)]
      have hval : (0xC0 + c.toNat / 0x40 - 0xC0) * 0x40 +
          (0x80 + c.toNat % 0x40 - 0x80) = c.toNat := by omega
      rw [hval, hofNat]
    · rw [if_neg h2]
      by_cases h3 : c.toNat < 0x10000
      · rw [if_pos h3]
        simp only [List.cons_append, List.nil_append]
        have hd : c.toNat / 0x1000 < 0x10 := by omega
        have hsur : ¬ (0xD800 ≤ c.toNat ∧ c.toNat < 0xE000) := by
          rcases hv with h | ⟨h, _⟩ <;> omega
        rw [utf8Decode_three _ _ _ _ (by omega) (by omega) ?hc]
        case hc =>
          simp only [utf8Cont, Bool.and_eq_true, decide_eq_true_eq]
          refine ⟨?_, by omega, by omega⟩
          split
          · simp only [Bool.and_eq_true, decide_eq_true_eq]; omega
          · split
            · simp only [Bool.and_eq_true, decide_eq_true_eq]; omega
            · simp only [utf8Cont, Bool.and_eq_true, decide_eq_true_eq]; omega
        have hval : (0xE0 + c.toNat / 0x1000 - 0xE0) * 0x1000 +
            (0x80 + c.toNat / 0x40 % 0x40 - 0x80) * 0x40 +
            (0x80 + c.toNat % 0x40 - 0x80) = c.toNat := by omega
        rw [hval, hofNat]
      · rw [if_neg h3]
        have h4 : c.toNat < 0x110000 := by
          rcases hv with h | ⟨_, h⟩ <;> omega
        simp only [List.cons_append, List.nil_append]
        have hd : c.toNat / 0x40000 < 5 := by omega
        rw [utf8Decode_four _ _ _ _ _ (by omega) (by omega) ?hc4]
        case hc4 =>
          simp only [utf8Cont, Bool.and_eq_true, decide_eq_true_eq]
          refine ⟨⟨?_, by omega, by omega⟩, by omega, by omega⟩
          split
          · simp only [Bool.and_eq_true, decide_eq_true_eq]; omega
          · split
            · simp only [Bool.and_eq_true, decide_eq_true_eq]; omega
            · simp only [utf8Cont, Bool.and_eq_true, decide_eq_true_eq]; omega
        have hval : (0xF0 + c.toNat / 0x40000 - 0xF0) * 0x40000 +
            (0x80 + c.toNat / 0x1000 % 0x40 - 0x80) * 0x1000 +
            (0x80 + c.toNat / 0x40 % 0x40 - 0x80) * 0x40 +
            (0x80 + c.toNat % 0x40 - 0x80) = c.toNat := by omega
        rw [hval, hofNat]

theorem utf8Decode_utf8Str (s : List Char) :
    utf8Decode (utf8Str s) = some s := by
  induction s with
  | nil => rfl
  | cons c cs ih =>
    show utf8Decode (utf8Char c.toNat ++ utf8Str cs) = _
    rw [utf8Decode_utf8Char, ih]
    rfl

/-! ## Encoder (`SARC_Archive.save`) -/

/-- One flattened file: its full slash-delimited path and its data. -/
abbrev FlatItem := List Char × List Nat

/-- `if path[-1] != "/": path += "/"` (on an empty path Python would raise
`IndexError`; here the guard sees no trailing slash and appends one —
theorems about `save` assume nonempty folder names, where the two agree). -/
def slashify (p : List Char) : List Char :=
  if p.getLast? ≠ some '/' then p ++ ['/'] else p

/-- The body of `addToFlatList(folder, path)`: normalise the accumulated
path (backslashes, trailing slash), then walk the folder's contents in
order, emitting files and recursing into subfolders. -/
def flatList : List Entry → List Char → List FlatItem
  | [], _ => []
  | .file n d :: es, p => (p ++ n, d) :: flatList es p
  | .folder n sub :: es, p =>
      flatList sub (slashify (normSlash (p ++ n))) ++ flatList es p

/-- The root flattening loop of `save`: root files contribute their bare
name, root folders enter `addToFlatList` seeded with their own name. -/
def flatten : List Entry → List FlatItem
  | [] => []
  | .file n d :: es => (n, d) :: flatten es
  | .folder n sub :: es => flatList sub (slashify (normSlash n)) ++ flatten es

/-- The sort key of `flatList.sort`: `struct.unpack` of `filenameHash`
applied to the full path (a one-element tuple compares by its entry). -/
def sortKey (e : Endian) (m : Nat) (it : FlatItem) : Nat :=
  (unpack4 e (filenameHashBytes it.1 e m)).getD 0

/-- Stable insertion of one item into a key-sorted list (an earlier item
stays before later items with an equal key, as Python's stable sort). -/
def insertHash (e : Endian) (m : Nat) (x : FlatItem) : List FlatItem → List FlatItem
  | [] => [x]
  | y :: ys =>
    if sortKey e m x ≤ sortKey e m y then x :: y :: ys else y :: insertHash e m x ys

/-- `flatList.sort(key=...)`: a stable sort by the 32-bit hash of the path,
compared as the endianness-interpreted unsigned integer. -/
def sortFlat (e : Endian) (m : Nat) : List FlatItem → List FlatItem
  | [] => []
  | x :: xs => insertHash e m x (sortFlat e m xs)

/-- The sorted flattened file list of an archive. -/
def sortedFiles (a : Archive) : List FlatItem :=
  sortFlat a.endianness a.hashMultiplier (flatten a.contents)

/-- The name-table loop: for each file record the current table length as
its name offset, append the UTF-8 path, then pad with `0x04 - len % 0x04`
null bytes (always at least one). Returns the items with their name
offsets, and the final table. -/
def ntLoop : List FlatItem → Bytes → List (FlatItem × Nat) × Bytes
  | [], tbl => ([], tbl)
  | it :: rest, tbl =>
    let off := tbl.length
    let t1 := tbl ++ utf8Str it.1
    let t2 := t1 ++ List.replicate (0x04 - t1.length % 0x04) 0
    let (out, tblF) := ntLoop rest t2
    ((it, off) :: out, tblF)

/-- The file-names table of an archive (`fileNamesTable`). -/
def nameTableOf (a : Archive) : Bytes :=
  (ntLoop (sortedFiles a) []).2

/-- Number of files to be written (`len(files)`). -/
def fileCountOf (a : Archive) : Nat :=
  (sortedFiles a).length

/-- `dataStartOffset_`: the minimum beginning-of-data offset,
`round_up(0x20 + SFATNodesTableLen + 0x08 + len(fileNamesTable), 0x10)`. -/
def minDataOffset (a : Archive) : Nat :=
  round_up (0x20 + 0x10 * fileCountOf a + 0x08 + (nameTableOf a).length) 0x10

/-- The effective beginning-of-data offset: the larger of the minimum and
the caller's rounded request; when the minimum wins, additionally rounded
up to `0x200`. -/
def effDataOffset (a : Archive) (dataStartOffset : Nat) : Nat :=
  let m := minDataOffset a
  let d := max m (round_up dataStartOffset 0x10)
  if d = m then round_up d 0x200 else d

/-- The payload-table loop: pad the running table up to the alignment
(for the first file the table is empty, so `round_up(0, al) = 0` pads
nothing, matching the source's `idx > 0` guard), record the offset, then
append the file's data. Returns items `((path, data), nameOff, dataOff)`
and the final table. -/
def pdLoop (al : Nat) : List (FlatItem × Nat) → Bytes → List (FlatItem × Nat × Nat) × Bytes
  | [], tbl => ([], tbl)
  | (it, noff) :: rest, tbl =>
    let t1 := tbl ++ List.replicate (round_up tbl.length al - tbl.length) 0
    let doff := t1.length
    let (out, tblF) := pdLoop al rest (t1 ++ it.2)
    ((it, noff, doff) :: out, tblF)

/-- The fully annotated sorted file list: name and data offsets. -/
def filesOf (a : Archive) (dso : Nat) : List (FlatItem × Nat × Nat) :=
  (pdLoop (alignOf (effDataOffset a dso)) (ntLoop (sortedFiles a) []).1 []).1

/-- The payload table (`fileDataTable`) of an archive. -/
def payloadTableOf (a : Archive) (dso : Nat) : Bytes :=
  (pdLoop (alignOf (effDataOffset a dso)) (ntLoop (sortedFiles a) []).1 []).2

/-- The recorded payload offsets, relative to the data-start offset. -/
def payloadOffsetsOf (a : Archive) (dso : Nat) : List Nat :=
  (filesOf a dso).map fun it => it.2.2

/-- `totalFileLen = dataStartOffset + len(fileDataTable)`. -/
def totalLenOf (a : Archive) (dso : Nat) : Nat :=
  effDataOffset a dso + (payloadTableOf a dso).length

/-- `b'SARC'`. -/
def sarcMagic : Bytes := [0x53, 0x41, 0x52, 0x43]

/-- `b'SFAT'`. -/
def sfatMagic : Bytes := [0x53, 0x46, 0x41, 0x54]

/-- `b'SFNT'`. -/
def sfntMagic : Bytes := [0x53, 0x46, 0x4E, 0x54]

/-- The byte-order mark for each endianness. -/
def bomOf (e : Endian) : Bytes :=
  match e with
  | .big => [0xFE, 0xFF]
  | .little => [0xFF, 0xFE]

/-- The SARC header: magic, header length `0x14`, BOM, total length,
data-start offset, and the fixed version marker. -/
def sarcHead (e : Endian) (total dso : Nat) : Bytes :=
  sarcMagic ++ packU16 e 0x14 ++ bomOf e ++ packU32 e total ++ packU32 e dso ++
    (match e with
     | .big => [1, 0, 0, 0]
     | .little => [0, 1, 0, 0])

/-- The SFAT header: magic, header length `0x0C`, file count, multiplier. -/
def sfatHead (e : Endian) (count m : Nat) : Bytes :=
  sfatMagic ++ packU16 e 0x0C ++ packU16 e count ++ packU32 e m

/-- One 16-byte SFAT index record: hash, `(nameOff // 4) | 0x1000000`,
payload start, payload start + payload length. -/
def sfatRecord (e : Endian) (m : Nat) (it : FlatItem × Nat × Nat) : Bytes :=
  filenameHashBytes it.1.1 e m ++ packU32 e (it.2.1 / 4 ||| 0x1000000) ++
    packU32 e it.2.2 ++ packU32 e (it.2.2 + it.1.2.length)

/-- The SFAT node table. -/
def sfatTable (e : Endian) (m : Nat) (its : List (FlatItem × Nat × Nat)) : Bytes :=
  its.flatMap (sfatRecord e m)

/-- The SFNT header: magic, header length `0x08`, two padding bytes. -/
def sfntHead (e : Endian) : Bytes :=
  sfntMagic ++
    (match e with
     | .big => [0x00, 0x08]
     | .little => [0x08, 0x00]) ++ [0x00, 0x00]

/-- Everything before the data-table padding: SARC header, SFAT header and
nodes, SFNT header, file names table. -/
def headerOf (a : Archive) (dso : Nat) : Bytes :=
  sarcHead a.endianness (totalLenOf a dso) (effDataOffset a dso) ++
    sfatHead a.endianness (fileCountOf a) a.hashMultiplier ++
    sfatTable a.endianness a.hashMultiplier (filesOf a dso) ++
    sfntHead a.endianness ++ nameTableOf a

/-- `SARC_Archive.save(dataStartOffset)`: the complete output buffer. -/
def save (a : Archive) (dso : Nat) : Bytes :=
  let header := headerOf a dso
  let eff := effDataOffset a dso
  let pad := if eff > header.length then List.replicate (eff - header.length) 0 else []
  header ++ pad ++ payloadTableOf a dso

/-! ## Decoder (`SARC_Archive._load`) -/

/-- `bytes_to_string(data, offset)`: the bytes from `offset` up to the
first NUL (or the end), decoded as UTF-8. -/
def bytesToString (data : Bytes) (off : Nat) : Option (List Char) :=
  utf8Decode ((data.drop off).takeWhile fun b => b != 0)

/-- The SFAT-node loop of `_load`: for each of `count` records starting at
`off`, read the endianness-positioned flag byte (`data[i]` raising
`IndexError` out of range is `none`), the 24-bit name-table entry offset
zero-extended on the endianness-appropriate side, and the payload start
and end. A node is `(unkFlag, nameOff, fileDataStart, fileDataLength)`;
the length is `end - start` (when `end < start` Python's negative length
and this truncated subtraction both produce an empty payload slice). -/
def loadNodes (e : Endian) (data : Bytes) : Nat → Nat → Option (List (Nat × Nat × Nat × Nat))
  | 0, _ => some []
  | count + 1, off => do
    let flagOff := match e with | .big => off + 4 | .little => off + 7
    let nameOffOff := match e with | .big => off + 5 | .little => off + 4
    let flag ← data[flagOff]?
    let nameBytes := match e with
      | .big => 0 :: slice data nameOffOff (nameOffOff + 3)
      | .little => slice data nameOffOff (nameOffOff + 3) ++ [0]
    let nameOff ← unpack4 e nameBytes
    let ds ← unpack4 e (slice data (off + 8) (off + 0xC))
    let de ← unpack4 e (slice data (off + 0xC) (off + 0x10))
    let rest ← loadNodes e data count (off + 0x10)
    return (flag, nameOff, ds, de - ds) :: rest

/-- The rebuild loop of `_load`: resolve each node's name (the stored
offset is a word index, hence `* 4`) and payload slice, and insert along
the split path; `none` models a `UnicodeDecodeError` escaping `_load`. -/
def addNodes (data : Bytes) (ntStart dso : Nat) :
    List (Nat × Nat × Nat × Nat) → List Entry → Option (List Entry)
  | [], cs => some cs
  | (_, noff, ds, dl) :: rest, cs => do
    let name ← bytesToString data (ntStart + noff * 4)
    let fileData := slice data (dso + ds) (dso + ds + dl)
    addNodes data ntStart dso rest (insertSegs (splitSlash name) fileData cs)

/-- `SARC_Archive._load(data)`: the updated archive and the return code
(`0` success, `1`–`8` the validation failures, in source order); `none`
models an uncaught exception (a `struct.error` on a truncated read, an
`IndexError`, or a name-decoding error). `endianness` and
`hashMultiplier` are overwritten at the points the source assigns them;
`contents` is replaced only after every check has passed. -/
def loadStep (data : Bytes) (a : Archive) : Option (Archive × Nat) :=
  if slice data 0 4 ≠ sarcMagic then some (a, 1)
  else
    match (match slice data 6 8 with
           | [0xFE, 0xFF] => some Endian.big
           | [0xFF, 0xFE] => some Endian.little
           | _ => none) with
    | none => some (a, 2)
    | some e =>
      match unpack2 e (slice data 4 6) with
      | none => none
      | some headLen =>
        if headLen ≠ 0x14 then some ({ a with endianness := e }, 3)
        else match unpack4 e (slice data 8 0xC) with
        | none => none
        | some fileLen =>
          if data.length ≠ fileLen then some ({ a with endianness := e }, 4)
          else match unpack4 e (slice data 0xC 0x10) with
          | none => none
          | some dso =>
            if slice data 0x14 0x18 ≠ sfatMagic then some ({ a with endianness := e }, 5)
            else match unpack2 e (slice data 0x18 0x1A) with
            | none => none
            | some sfatLen =>
              if sfatLen ≠ 0x0C then some ({ a with endianness := e }, 6)
              else match unpack2 e (slice data 0x1A 0x1C) with
              | none => none
              | some nodeCount =>
                match unpack4 e (slice data 0x1C 0x20) with
                | none => none
                | some mult =>
                  match loadNodes e data nodeCount 0x20 with
                  | none => none
                  | some nodes =>
                    if slice data (0x20 + 0x10 * nodeCount) (0x20 + 0x10 * nodeCount + 4) ≠ sfntMagic then
                      some ({ a with endianness := e, hashMultiplier := mult }, 7)
                    else match unpack2 e (slice data (0x20 + 0x10 * nodeCount + 4) (0x20 + 0x10 * nodeCount + 6)) with
                    | none => none
                    | some sfntLen =>
                      if sfntLen ≠ 0x08 then some ({ a with endianness := e, hashMultiplier := mult }, 8)
                      else match addNodes data (0x20 + 0x10 * nodeCount + 8) dso nodes [] with
                      | none => none
                      | some cs =>
                        some ({ a with endianness := e, hashMultiplier := mult, contents := cs }, 0)

/-! ## Arithmetic facts about `round_up` and bit masks -/

theorem or_and_self (a b : Nat) : (a ||| b) &&& a = a := by
  apply Nat.eq_of_testBit_eq
  intro i
  rw [Nat.testBit_and, Nat.testBit_or]
  cases a.testBit i <;> cases b.testBit i <;> rfl

theorem le_or_self (a b : Nat) : a ≤ a ||| b := by
  conv_lhs => rw [← or_and_self a b]
  exact Nat.and_le_left

theorem or_two_pow_sub_one (a k : Nat) :
    a ||| (2 ^ k - 1) = 2 ^ k * (a / 2 ^ k) + (2 ^ k - 1) := by
  apply Nat.eq_of_testBit_eq
  intro i
  rw [Nat.testBit_or, Nat.testBit_two_pow_sub_one,
    Nat.testBit_mul_pow_two_add _ (Nat.sub_lt (Nat.two_pow_pos k) Nat.one_pos) i]
  by_cases hik : i < k
  · simp [hik]
  · rw [if_neg hik, ← Nat.shiftRight_eq_div_pow, Nat.testBit_shiftRight,
      (by omega : k + (i - k) = i)]
    simp [hik]

theorem or_mod_two_pow (a b n : Nat) :
    (a ||| b) % 2 ^ n = a % 2 ^ n ||| b % 2 ^ n := by
  apply Nat.eq_of_testBit_eq
  intro i
  rw [Nat.testBit_mod_two_pow, Nat.testBit_or, Nat.testBit_or,
    Nat.testBit_mod_two_pow, Nat.testBit_mod_two_pow]
  cases hd : decide (i < n) <;> cases a.testBit i <;> cases b.testBit i <;> rfl

theorem round_up_pow2 (x k : Nat) :
    round_up x (2 ^ k) = (x + 2 ^ k - 1) / 2 ^ k * 2 ^ k := by
  have hpos : 0 < 2 ^ k := Nat.two_pow_pos k
  unfold round_up
  split
  · subst x
    rw [Nat.zero_add, Nat.div_eq_of_lt (Nat.sub_lt hpos Nat.one_pos), Nat.zero_mul]
  · rename_i hx
    rw [or_two_pow_sub_one, (by omega : x + 2 ^ k - 1 = (x - 1) + 2 ^ k),
      Nat.add_div_right _ hpos, Nat.add_mul, Nat.one_mul, Nat.mul_comm]
    omega

theorem round_up_ge (x y : Nat) : x ≤ round_up x y := by
  unfold round_up
  split
  · omega
  · have := le_or_self (x - 1) (y - 1)
    omega

theorem round_up_pow2_dvd (x k : Nat) : 2 ^ k ∣ round_up x (2 ^ k) := by
  rw [round_up_pow2]
  exact Dvd.intro_left _ rfl

theorem round_up_dvd (x y k : Nat) (hdvd : 2 ^ k ∣ y) (hy : 0 < y) :
    2 ^ k ∣ round_up x y := by
  rcases Nat.eq_zero_or_pos k with hk | hk
  · subst hk; exact Nat.one_dvd _
  have hpos : 0 < 2 ^ k := Nat.two_pow_pos k
  have h2 : 2 ≤ 2 ^ k := by
    calc 2 = 2 ^ 1 := rfl
    _ ≤ 2 ^ k := Nat.pow_le_pow_right (by omega) hk
  unfold round_up
  split
  · exact Dvd.dvd.mul_right ⟨0, rfl⟩ 0
  · rename_i hx
    obtain ⟨t, rfl⟩ := hdvd
    have ht : 0 < t := by
      rcases Nat.eq_zero_or_pos t with h | h
      · subst h; omega
      · exact h
    have h1 : (2 ^ k * t - 1) % 2 ^ k = 2 ^ k - 1 := by
      have e2 : 2 ^ k * t = 2 ^ k * (t - 1) + 2 ^ k := by
        conv_lhs => rw [(by omega : t = (t - 1) + 1)]
        rw [Nat.mul_add, Nat.mul_one]
      have e : 2 ^ k * t - 1 = 2 ^ k * (t - 1) + (2 ^ k - 1) := by omega
      rw [e, Nat.mul_add_mod, Nat.mod_eq_of_lt (Nat.sub_lt hpos Nat.one_pos)]
    have hlt : (x - 1) % 2 ^ k < 2 ^ k := Nat.mod_lt _ hpos
    have hmod : ((x - 1 ||| (2 ^ k * t - 1)) + 1) % 2 ^ k = 0 := by
      rw [Nat.add_mod, or_mod_two_pow, h1, or_two_pow_sub_one,
        Nat.div_eq_of_lt hlt, Nat.mul_zero, Nat.zero_add,
        Nat.mod_eq_of_lt (by omega : (1 : Nat) < 2 ^ k),
        (by omega : 2 ^ k - 1 + 1 = 2 ^ k), Nat.mod_self]
    exact Nat.dvd_of_mod_eq_zero hmod

/-- Rounding up to a multiple, as the specification means it. -/
def roundUpSpec (x y : Nat) : Nat :=
  (x + y - 1) / y * y

theorem round_up_sixteen (x : Nat) : round_up x 0x10 = roundUpSpec x 0x10 := by
  have h := round_up_pow2 x 4
  norm_num at h
  rw [roundUpSpec, h]
  omega

theorem round_up_fivetwelve (x : Nat) : round_up x 0x200 = roundUpSpec x 0x200 := by
  have h := round_up_pow2 x 9
  norm_num at h
  rw [roundUpSpec, h]
  omega

/-- Claim C8: the encoder's effective data-start offset is the maximum of
`round_up(0x20 + 0x10*fileCount + 0x08 + nameTableLength, 0x10)` and the
caller's value rounded up to a multiple of `0x10`; when the maximum equals
the computed minimum, it is additionally rounded up to the nearest
multiple of `0x200`. -/
theorem effDataOffset_spec (a : Archive) (dso : Nat) :
    effDataOffset a dso =
      (let m := roundUpSpec (0x20 + 0x10 * fileCountOf a + 0x08 +
        (nameTableOf a).length) 0x10
       let d := max m (roundUpSpec dso 0x10)
       if d = m then roundUpSpec d 0x200 else d) := by
  unfold effDataOffset minDataOffset
  simp only [round_up_sixteen, round_up_fivetwelve]

/-! ## Claim C4: decoder validation ordering -/

/-- A 40-byte buffer every `_load` check accepts (zero files). -/
def okBuf : Bytes :=
  [0x53, 0x41, 0x52, 0x43, 0x00, 0x14, 0xFE, 0xFF, 0x00, 0x00, 0x00, 0x28,
   0x00, 0x00, 0x00, 0x30, 0x00, 0x00, 0x00, 0x00, 0x53, 0x46, 0x41, 0x54,
   0x00, 0x0C, 0x00, 0x00, 0x00, 0x00, 0x00, 0x65, 0x53, 0x46, 0x4E, 0x54,
   0x00, 0x08, 0x00, 0x00]

/-- `okBuf` with the byte at position `i` replaced by `v`. -/
def okBufWith (i v : Nat) : Bytes :=
  okBuf.set i v

/-- Claim C4: each structural check of `_load` reports its own failure
kind, in source order 1–8 (bad outer magic, unrecognized BOM, bad outer
header length, total-length mismatch, bad SFAT magic, bad SFAT header
length, bad SFNT magic, bad SFNT header length). A corrupted outer magic
fails with kind 1 whatever the rest of the buffer holds, and for each of
the eight checks a buffer differing from an accepted one in a single
field triggers exactly that kind. -/
theorem loadStep_validation :
    (∀ (data : Bytes) (a : Archive), slice data 0 4 ≠ sarcMagic →
      loadStep data a = some (a, 1)) ∧
    (loadStep okBuf freshArchive).map Prod.snd = some 0 ∧
    (loadStep (okBufWith 0 0x54) freshArchive).map Prod.snd = some 1 ∧
    (loadStep (okBufWith 6 0x00) freshArchive).map Prod.snd = some 2 ∧
    (loadStep (okBufWith 5 0x15) freshArchive).map Prod.snd = some 3 ∧
    (loadStep (okBufWith 11 0x29) freshArchive).map Prod.snd = some 4 ∧
    (loadStep (okBufWith 20 0x54) freshArchive).map Prod.snd = some 5 ∧
    (loadStep (okBufWith 25 0x0D) freshArchive).map Prod.snd = some 6 ∧
    (loadStep (okBufWith 32 0x54) freshArchive).map Prod.snd = some 7 ∧
    (loadStep (okBufWith 37 0x09) freshArchive).map Prod.snd = some 8 := by
  refine ⟨fun data a h => ?_, rfl, rfl, rfl, rfl, rfl, rfl, rfl, rfl, rfl⟩
  unfold loadStep
  rw [if_pos h]

/-- Witness for C4's universal conjunct at a concrete corrupt buffer. -/
theorem loadStep_validation_witness :
    slice [0x00] 0 4 ≠ sarcMagic ∧
    loadStep [0x00] freshArchive = some (freshArchive, 1) :=
  ⟨by decide, loadStep_validation.1 [0x00] freshArchive (by decide)⟩

/-! ## Claim C10: decode failure leaves the contents untouched -/

/-- Claim C10: whenever `_load` returns one of the eight validation error
kinds, the archive's `contents` are exactly what they were before the
call (the tree is cleared only after all structural checks pass); the
`endianness` and `hashMultiplier` fields may however already have been
overwritten. -/
theorem loadStep_error_contents (data : Bytes) (a a' : Archive) (k : Nat)
    (h : loadStep data a = some (a', k)) (hk : k ≠ 0) :
    a'.contents = a.contents := by
  unfold loadStep at h
  repeat' split at h
  all_goals
    first
    | (cases h)
    | (injection h with h1 h2
       first
       | (exact absurd h2.symm hk)
       | (rw [← h1]))
  all_goals first | rfl | (exact absurd rfl hk)

/-- Witness for C10: a buffer failing the BOM check (kind 2). -/
theorem loadStep_error_contents_witness :
    loadStep (okBufWith 6 0x00) freshArchive = some (freshArchive, 2) ∧
    (2 : Nat) ≠ 0 ∧ freshArchive.contents = freshArchive.contents :=
  ⟨rfl, by decide,
    loadStep_error_contents (okBufWith 6 0x00) freshArchive freshArchive 2 rfl
      (by decide)⟩

/-! ## Claim C7: the derived payload alignment -/

theorem testBit_eq_false_of_two_pow_dvd (n x i : Nat) (hdvd : 2 ^ n ∣ x)
    (hi : i < n) : x.testBit i = false := by
  obtain ⟨m, rfl⟩ := hdvd
  rw [Nat.testBit_to_div_mod]
  have hsplit : (2 : Nat) ^ n = 2 ^ i * 2 ^ (n - i) := by
    rw [← pow_add]
    congr 1
    omega
  rw [hsplit, Nat.mul_assoc, Nat.mul_div_cancel_left _ (Nat.two_pow_pos i)]
  have heven : 2 ∣ 2 ^ (n - i) * m := by
    exact Dvd.dvd.mul_right (dvd_pow_self 2 (by omega : n - i ≠ 0)) m
  obtain ⟨q, hq⟩ := heven
  rw [hq]
  simp [Nat.mul_mod_right]

theorem testBit_true_of_dvd_not_dvd (k x : Nat) (h1 : 2 ^ k ∣ x)
    (h2 : ¬ 2 ^ (k + 1) ∣ x) : x.testBit k = true := by
  obtain ⟨m, rfl⟩ := h1
  have hodd : m % 2 = 1 := by
    rcases Nat.mod_two_eq_zero_or_one m with he | ho
    · refine absurd ⟨m / 2, ?_⟩ h2
      rw [pow_succ, Nat.mul_assoc]
      congr 1
      omega
    · exact ho
  rw [Nat.testBit_to_div_mod, Nat.mul_div_cancel_left _ (Nat.two_pow_pos k)]
  simp [hodd]

theorem testBit_twofourty (i : Nat) :
    (0xF0 : Nat).testBit i = (decide (4 ≤ i) && decide (i < 8)) := by
  rcases Nat.lt_or_ge i 8 with h | h
  · interval_cases i <;> decide
  · rw [Nat.testBit_lt_two_pow]
    · simp
      omega
    · calc (0xF0 : Nat) < 2 ^ 8 := by norm_num
      _ ≤ 2 ^ i := Nat.pow_le_pow_right (by omega) h

/-- The mask value scanned by the alignment loop at step `nz`, on an
offset whose lowest set bit is `k`: zero while the window lies below `k`,
and exactly `2 ^ k` when the window first reaches it. -/
theorem mask_step_eq (off k nz : Nat) (hdvd : 2 ^ k ∣ off) (hbit : off.testBit k = true) :
    (nz + 7 < k → off &&& (0xF0 <<< nz) = 0) ∧
    (nz + 7 = k → off &&& (0xF0 <<< nz) = 2 ^ k) := by
  constructor
  · intro hlt
    apply Nat.eq_of_testBit_eq
    intro i
    rw [Nat.testBit_and, Nat.testBit_shiftLeft, testBit_twofourty, Nat.zero_testBit]
    rcases Nat.lt_or_ge i k with hik | hik
    · rw [testBit_eq_false_of_two_pow_dvd k off i hdvd hik]
      rfl
    · have : ¬ (i - nz < 8) := by omega
      simp [this]
  · intro heq
    apply Nat.eq_of_testBit_eq
    intro i
    rw [Nat.testBit_and, Nat.testBit_shiftLeft, testBit_twofourty, Nat.testBit_two_pow]
    rcases Nat.lt_or_ge i k with hik | hik
    · rw [testBit_eq_false_of_two_pow_dvd k off i hdvd hik]
      simp
      omega
    · rcases Nat.eq_or_lt_of_le hik with hik' | hik'
      · subst hik'
        rw [hbit]
        simp
        omega
      · have : ¬ (i - nz < 8) := by omega
        simp [this]
        omega

theorem alignLoop_reaches (off k : Nat) (hdvd : 2 ^ k ∣ off)
    (hbit : off.testBit k = true) :
    ∀ (fuel nz : Nat), 1 ≤ nz → nz + 7 ≤ k → k - 7 - nz < fuel →
      alignLoop off nz fuel = 2 ^ k := by
  intro fuel
  induction fuel with
  | zero => intro nz _ _ h; omega
  | succ fuel ih =>
    intro nz h1 h2 h3
    rcases Nat.eq_or_lt_of_le h2 with heq | hlt
    · have hm := (mask_step_eq off k nz hdvd hbit).2 (by omega)
      unfold alignLoop
      simp only [hm]
      rw [if_neg (by positivity)]
    · have hm := (mask_step_eq off k nz hdvd hbit).1 (by omega)
      unfold alignLoop
      simp only [hm, if_pos rfl]
      exact ih (nz + 1) (by omega) (by omega) (by omega)

/-- `effDataOffset` is always a multiple of `0x10`. -/
theorem effDataOffset_dvd_sixteen (a : Archive) (dso : Nat) :
    (0x10 : Nat) ∣ effDataOffset a dso := by
  simp only [effDataOffset, minDataOffset]
  have h1 : (0x10 : Nat) ∣ round_up (0x20 + 0x10 * fileCountOf a + 0x08 +
      (nameTableOf a).length) 0x10 := round_up_pow2_dvd _ 4
  have h2 : (0x10 : Nat) ∣ round_up dso 0x10 := round_up_pow2_dvd _ 4
  have h3 : (0x10 : Nat) ∣ max (round_up (0x20 + 0x10 * fileCountOf a + 0x08 +
      (nameTableOf a).length) 0x10) (round_up dso 0x10) := by
    rcases Nat.le_total (round_up (0x20 + 0x10 * fileCountOf a + 0x08 +
      (nameTableOf a).length) 0x10) (round_up dso 0x10) with h | h
    · rw [Nat.max_eq_right h]; exact h2
    · rw [Nat.max_eq_left h]; exact h1
  split
  · have : (0x10 : Nat) ∣ 0x200 := by norm_num
    have h9 := round_up_pow2_dvd (max (round_up (0x20 + 0x10 * fileCountOf a + 0x08 +
      (nameTableOf a).length) 0x10) (round_up dso 0x10)) 9
    exact dvd_trans (by norm_num) h9
  · exact h3

/-- Claim C7 (counterexample): on the empty archive with requested offset
`0x130` the encoder chooses the effective offset `0x130` and derives the
alignment `0x30`, which is not even a divisor of `0x130` — so it is not
the largest power-of-two divisor of the offset that is at least `0x10`
(that divisor is `0x10`). -/
theorem alignOf_counterexample :
    effDataOffset freshArchive 0x130 = 0x130 ∧
    alignOf 0x130 = 0x30 ∧
    ¬ ((0x30 : Nat) ∣ 0x130) ∧
    (0x10 : Nat) ∣ 0x130 ∧ ¬ ((0x20 : Nat) ∣ 0x130) := by
  have hs : sortedFiles freshArchive = [] := by
    simp [sortedFiles, freshArchive, flatten, sortFlat]
  refine ⟨?_, by decide, by decide, by decide, by decide⟩
  unfold effDataOffset minDataOffset fileCountOf nameTableOf
  rw [hs]
  decide

/-- Claim C7 (amended): for every effective data-start offset the encoder
chooses (a multiple of `0x10`), the derived alignment is `off & 0xF0`
(that is, `off mod 0x100`) when that value is nonzero — which can exceed
the largest power-of-two divisor of the offset — and otherwise it is the
largest power-of-two divisor `2 ^ k` of the offset, which is then at
least `0x100`. -/
theorem alignOf_eff (a : Archive) (dso : Nat)
    (hlt : effDataOffset a dso < 2 ^ 32) :
    (effDataOffset a dso &&& 0xF0 ≠ 0 →
      alignOf (effDataOffset a dso) = effDataOffset a dso &&& 0xF0 ∧
      effDataOffset a dso &&& 0xF0 = effDataOffset a dso % 0x100) ∧
    (∀ k, effDataOffset a dso &&& 0xF0 = 0 → 2 ^ k ∣ effDataOffset a dso →
      ¬ 2 ^ (k + 1) ∣ effDataOffset a dso →
      8 ≤ k ∧ alignOf (effDataOffset a dso) = 2 ^ k) := by
  have h16 : (0x10 : Nat) ∣ effDataOffset a dso := effDataOffset_dvd_sixteen a dso
  set off := effDataOffset a dso with hoff
  have hlow : ∀ i, i < 4 → off.testBit i = false := fun i hi =>
    testBit_eq_false_of_two_pow_dvd 4 off i (by exact_mod_cast h16) hi
  constructor
  · intro hne
    constructor
    · unfold alignOf
      simp only []
      rw [if_neg hne]
    · rw [(by norm_num : (0x100 : Nat) = 2 ^ 8)]
      apply Nat.eq_of_testBit_eq
      intro i
      rw [Nat.testBit_and, testBit_twofourty, Nat.testBit_mod_two_pow]
      rcases Nat.lt_or_ge i 4 with hi | hi
      · rw [hlow i hi]
        simp
      · rcases Nat.lt_or_ge i 8 with hi8 | hi8
        · have e4 : decide (4 ≤ i) = true := by simp; omega
          have e8 : decide (i < 8) = true := by simp; omega
          rw [e4, e8]
          cases off.testBit i <;> rfl
        · have e4 : decide (4 ≤ i) = true := by simp; omega
          have e8 : decide (i < 8) = false := by simp; omega
          rw [e4, e8]
          cases off.testBit i <;> rfl
  · intro k hzero hdvd hnot
    have hoffne : off ≠ 0 := by
      intro h0
      apply hnot
      rw [h0]
      exact dvd_zero _
    have hmid : ∀ i, 4 ≤ i → i < 8 → off.testBit i = false := by
      intro i h4 h8
      have hz := congrArg (fun x => x.testBit i) hzero
      simp only [Nat.testBit_and, testBit_twofourty, Nat.zero_testBit] at hz
      cases hb : off.testBit i
      · rfl
      · rw [hb] at hz
        have e4 : decide (4 ≤ i) = true := by simp; omega
        have e8 : decide (i < 8) = true := by simp; omega
        rw [e4, e8] at hz
        exact absurd hz (by simp)
    have h256 : (2 : Nat) ^ 8 ∣ off := by
      have hmod : off % 2 ^ 8 = 0 := by
        apply Nat.eq_of_testBit_eq
        intro i
        rw [Nat.testBit_mod_two_pow, Nat.zero_testBit]
        rcases Nat.lt_or_ge i 8 with hi8 | hi8
        · rcases Nat.lt_or_ge i 4 with hi | hi
          · rw [hlow i hi]
            cases decide (i < 8) <;> rfl
          · rw [hmid i hi hi8]
            cases decide (i < 8) <;> rfl
        · have e8 : decide (i < 8) = false := by simp; omega
          rw [e8]
          rfl
      exact Nat.dvd_of_mod_eq_zero hmod
    have hk8 : 8 ≤ k := by
      by_contra hk
      push_neg at hk
      exact hnot (dvd_trans (pow_dvd_pow 2 (by omega : k + 1 ≤ 8)) h256)
    have hk32 : k < 32 := by
      have hle : 2 ^ k ≤ off := Nat.le_of_dvd (Nat.pos_of_ne_zero hoffne) hdvd
      by_contra hge
      push_neg at hge
      have : (2 : Nat) ^ 32 ≤ 2 ^ k := Nat.pow_le_pow_right (by omega) hge
      omega
    have hbit : off.testBit k = true := testBit_true_of_dvd_not_dvd k off hdvd hnot
    refine ⟨hk8, ?_⟩
    unfold alignOf
    simp only []
    rw [if_pos hzero]
    exact alignLoop_reaches off k hdvd hbit 64 1 (by omega) (by omega) (by omega)

/-- Witness for C7's amended theorem: the empty archive with requested
offset `0` gets effective offset `0x200` and alignment `2 ^ 9`. -/
theorem alignOf_eff_witness :
    effDataOffset freshArchive 0 < 2 ^ 32 ∧
    alignOf (effDataOffset freshArchive 0) = 2 ^ 9 := by
  have hs : sortedFiles freshArchive = [] := by
    simp [sortedFiles, freshArchive, flatten, sortFlat]
  have heff : effDataOffset freshArchive 0 = 0x200 := by
    unfold effDataOffset minDataOffset fileCountOf nameTableOf
    rw [hs]
    decide
  have h := (alignOf_eff freshArchive 0 (by rw [heff]; norm_num)).2 9
    (by rw [heff]; decide) (by rw [heff]; decide) (by rw [heff]; decide)
  exact ⟨by rw [heff]; norm_num, h.2⟩

/-! ## Buffer layout lemmas -/

/-- `struct.unpack(e + 'I', data[off:off+4])[0]`. -/
def readU32 (e : Endian) (data : Bytes) (off : Nat) : Option Nat :=
  unpack4 e (slice data off (off + 4))

theorem sarcHead_length (e : Endian) (total dso : Nat) :
    (sarcHead e total dso).length = 20 := by
  cases e <;> rfl

theorem sfatHead_length (e : Endian) (c m : Nat) :
    (sfatHead e c m).length = 12 := by
  cases e <;> rfl

theorem sfntHead_length (e : Endian) : (sfntHead e).length = 8 := by
  cases e <;> rfl

theorem sfatRecord_length (e : Endian) (m : Nat) (it : FlatItem × Nat × Nat) :
    (sfatRecord e m it).length = 16 := by
  cases e <;> rfl

theorem sfatTable_length (e : Endian) (m : Nat) (its : List (FlatItem × Nat × Nat)) :
    (sfatTable e m its).length = 16 * its.length := by
  induction its with
  | nil => rfl
  | cons it rest ih =>
    simp only [sfatTable, List.flatMap_cons, List.length_append, List.length_cons]
    rw [← sfatTable, ih, sfatRecord_length]
    ring

theorem ntLoop_map (l : List FlatItem) (tbl : Bytes) :
    (ntLoop l tbl).1.map (fun it => it.1) = l := by
  induction l generalizing tbl with
  | nil => rfl
  | cons it rest ih =>
    simp only [ntLoop]
    rw [List.map_cons, ih]

theorem pdLoop_map (al : Nat) (l : List (FlatItem × Nat)) (tbl : Bytes) :
    (pdLoop al l tbl).1.map (fun it => it.1) = l.map (fun it => it.1) := by
  induction l generalizing tbl with
  | nil => rfl
  | cons it rest ih =>
    simp only [pdLoop]
    rw [List.map_cons, List.map_cons, ih]

theorem filesOf_map (a : Archive) (dso : Nat) :
    (filesOf a dso).map (fun it => it.1) = sortedFiles a := by
  unfold filesOf
  rw [pdLoop_map, ntLoop_map]

theorem filesOf_length (a : Archive) (dso : Nat) :
    (filesOf a dso).length = fileCountOf a := by
  have h := filesOf_map a dso
  have h1 := congrArg List.length h
  rw [List.length_map] at h1
  rw [h1]
  rfl

/-- A slice wholly inside the left part of an append. -/
theorem slice_append_left (A B : Bytes) (i j : Nat) (hj : j ≤ A.length) :
    slice (A ++ B) i j = slice A i j := by
  unfold slice
  rcases Nat.le_total i A.length with hi | hi
  · rw [List.drop_append_of_le_length hi]
    rw [List.take_append_of_le_length (by simp [List.length_drop]; omega)]
  · have hij : j - i = 0 := by omega
    rw [hij]
    simp

/-- A slice of the right part of an append, shifted by the left length. -/
theorem slice_append_shift (A B : Bytes) (i j k : Nat) (hA : A.length = k) :
    slice (A ++ B) (k + i) (k + j) = slice B i j := by
  unfold slice
  subst hA
  rw [List.drop_append_eq_append_drop]
  have h1 : A.length ≤ A.length + i := by omega
  rw [List.drop_eq_nil_of_le h1]
  simp only [List.nil_append]
  have e1 : A.length + i - A.length = i := by omega
  have e2 : A.length + j - (A.length + i) = j - i := by omega
  rw [e1, e2]

/-! ## The sort: stability, permutation, sortedness -/

theorem filenameHash_lt (name : List Char) (m : Nat) :
    filenameHash name m < 2 ^ 32 := by
  induction name using List.reverseRecOn with
  | nil => norm_num [filenameHash]
  | append_singleton cs c ih =>
    unfold filenameHash
    rw [List.foldl_append, List.foldl_cons, List.foldl_nil]
    calc _ ≤ 0xFFFFFFFF := Nat.and_le_right
    _ < 2 ^ 32 := by norm_num

theorem sortKey_eq (e : Endian) (m : Nat) (it : FlatItem) :
    sortKey e m it = filenameHash it.1 m := by
  unfold sortKey filenameHashBytes
  rw [unpack4_packU32]
  have h1 : filenameHash it.1 m < 4294967296 := by
    have := filenameHash_lt it.1 m
    norm_num at this
    exact this
  simp only [Option.getD_some]
  exact Nat.mod_eq_of_lt h1

theorem insertHash_perm (e : Endian) (m : Nat) (x : FlatItem) (l : List FlatItem) :
    (insertHash e m x l).Perm (x :: l) := by
  induction l with
  | nil => exact List.Perm.refl _
  | cons y ys ih =>
    unfold insertHash
    split
    · exact List.Perm.refl _
    · exact List.Perm.trans (List.Perm.cons y ih) (List.Perm.swap x y ys)

theorem sortFlat_perm (e : Endian) (m : Nat) (l : List FlatItem) :
    (sortFlat e m l).Perm l := by
  induction l with
  | nil => exact List.Perm.refl _
  | cons x xs ih =>
    exact ((insertHash_perm e m x (sortFlat e m xs)).trans (ih.cons x))

theorem insertHash_sorted (e : Endian) (m : Nat) (x : FlatItem) (l : List FlatItem)
    (hl : l.Pairwise (fun u v => sortKey e m u ≤ sortKey e m v)) :
    (insertHash e m x l).Pairwise (fun u v => sortKey e m u ≤ sortKey e m v) := by
  induction l with
  | nil => simp [insertHash]
  | cons y ys ih =>
    rw [List.pairwise_cons] at hl
    unfold insertHash
    split
    · rename_i hxy
      rw [List.pairwise_cons]
      refine ⟨?_, List.pairwise_cons.2 hl⟩
      intro v hv
      rcases List.mem_cons.1 hv with hv | hv
      · subst hv
        omega
      · exact le_trans hxy (hl.1 v hv)
    · rename_i hxy
      push_neg at hxy
      rw [List.pairwise_cons]
      refine ⟨?_, ih hl.2⟩
      intro v hv
      have hmem := (insertHash_perm e m x ys).mem_iff.1 hv
      rcases List.mem_cons.1 hmem with hv2 | hv2
      · subst hv2
        omega
      · exact hl.1 v hv2

theorem sortFlat_sorted (e : Endian) (m : Nat) (l : List FlatItem) :
    (sortFlat e m l).Pairwise (fun u v => sortKey e m u ≤ sortKey e m v) := by
  induction l with
  | nil => exact List.Pairwise.nil
  | cons x xs ih => exact insertHash_sorted e m x _ ih

/-! ## Claim C6: the SFAT index is sorted by hash -/

theorem sfatTable_cons (e : Endian) (m : Nat) (it : FlatItem × Nat × Nat)
    (tail : List (FlatItem × Nat × Nat)) :
    sfatTable e m (it :: tail) = sfatRecord e m it ++ sfatTable e m tail := rfl

theorem filenameHashBytes_length (name : List Char) (e : Endian) (m : Nat) :
    (filenameHashBytes name e m).length = 4 :=
  packU32_length e _

theorem sfatTable_hash_slice (e : Endian) (m : Nat) :
    ∀ (its : List (FlatItem × Nat × Nat)) (rest : Bytes) (i : Nat) (hi : i < its.length),
      slice (sfatTable e m its ++ rest) (16 * i) (16 * i + 4) =
        filenameHashBytes (its.get ⟨i, hi⟩).1.1 e m := by
  intro its
  induction its with
  | nil =>
    intro rest i hi
    exact absurd hi (by simp)
  | cons it tail ih =>
    intro rest i hi
    cases i with
    | zero =>
      rw [sfatTable_cons, List.append_assoc]
      simp only [sfatRecord, List.append_assoc]
      unfold slice
      rw [Nat.mul_zero, List.drop_zero,
        (by rw [filenameHashBytes_length] :
          4 - 16 * 0 = (filenameHashBytes it.1.1 e m).length),
        List.take_left]
      rfl
    | succ j =>
      have e1 : 16 * (j + 1) = 16 + 16 * j := by ring
      have e2 : 16 * (j + 1) + 4 = 16 + (16 * j + 4) := by ring
      rw [sfatTable_cons, List.append_assoc, e2, e1,
        slice_append_shift _ _ _ _ 16 (sfatRecord_length e m it)]
      exact ih rest j (Nat.lt_of_succ_lt_succ hi)

/-- The four bytes at `0x20 + 0x10*i` of `save`'s output are the packed
hash of the `i`-th sorted file's path. -/
theorem save_hash_at (a : Archive) (dso i : Nat) (hi : i < fileCountOf a) :
    readU32 a.endianness (save a dso) (0x20 + 0x10 * i) =
      some (filenameHash
        ((filesOf a dso).get ⟨i, by rw [filesOf_length]; exact hi⟩).1.1
        a.hashMultiplier) := by
  have hlen : i < (filesOf a dso).length := by rw [filesOf_length]; exact hi
  unfold readU32
  simp only [save, headerOf, List.append_assoc]
  have e1 : 0x20 + 0x10 * i = 20 + (12 + 16 * i) := by omega
  have e2 : 0x20 + 0x10 * i + 4 = 20 + (12 + (16 * i + 4)) := by omega
  rw [e2, e1, slice_append_shift _ _ _ _ 20 (sarcHead_length _ _ _),
    slice_append_shift _ _ _ _ 12 (sfatHead_length _ _ _),
    sfatTable_hash_slice a.endianness a.hashMultiplier (filesOf a dso) _ i hlen]
  unfold filenameHashBytes
  rw [unpack4_packU32]
  congr 1
  have h := filenameHash_lt ((filesOf a dso).get ⟨i, hlen⟩).1.1 a.hashMultiplier
  norm_num at h
  exact Nat.mod_eq_of_lt h

/-- Claim C6: in the buffer produced by `save`, the 32-bit hash values of
the SFAT index records, read in the archive's endianness, are
non-decreasing from the first record to the last. -/
theorem sfat_index_sorted (a : Archive) (dso i : Nat) (hi : i + 1 < fileCountOf a) :
    ∃ h₁ h₂,
      readU32 a.endianness (save a dso) (0x20 + 0x10 * i) = some h₁ ∧
      readU32 a.endianness (save a dso) (0x20 + 0x10 * (i + 1)) = some h₂ ∧
      h₁ ≤ h₂ := by
  have hi0 : i < fileCountOf a := by omega
  refine ⟨_, _, save_hash_at a dso i hi0, save_hash_at a dso (i + 1) hi, ?_⟩
  have hsorted : (sortedFiles a).Pairwise
      (fun u v => sortKey a.endianness a.hashMultiplier u ≤
        sortKey a.endianness a.hashMultiplier v) :=
    sortFlat_sorted _ _ _
  rw [← filesOf_map a dso, List.pairwise_map] at hsorted
  have hlen : i + 1 < (filesOf a dso).length := by rw [filesOf_length]; exact hi
  have h := List.pairwise_iff_get.1 hsorted ⟨i, by omega⟩ ⟨i + 1, hlen⟩
    (by exact Nat.lt_succ_self i)
  rw [sortKey_eq, sortKey_eq] at h
  exact h

/-- A two-file archive for witnesses. -/
def twoFiles : Archive :=
  { contents := [.file ['b'] [1], .file ['a'] [2]],
    endianness := .big, hashMultiplier := 0x65 }

/-- Witness for C6 on a concrete two-file archive. -/
theorem sfat_index_sorted_witness :
    0 + 1 < fileCountOf twoFiles ∧
    (∃ h₁ h₂,
      readU32 twoFiles.endianness (save twoFiles 0) (0x20 + 0x10 * 0) = some h₁ ∧
      readU32 twoFiles.endianness (save twoFiles 0) (0x20 + 0x10 * (0 + 1)) = some h₂ ∧
      h₁ ≤ h₂) := by
  have hcount : fileCountOf twoFiles = 2 := by
    have hf : flatten twoFiles.contents = [(['b'], [1]), (['a'], [2])] := by
      simp [twoFiles, flatten]
    unfold fileCountOf sortedFiles
    rw [hf]
    decide
  exact ⟨by omega, sfat_index_sorted twoFiles 0 0 (by omega)⟩

/-! ## Claim C9: payload alignment and total length -/

/-- Every recorded payload offset is a `round_up` to the alignment, so it
is divisible by any power of two dividing the (positive) alignment. -/
theorem pdLoop_offsets_dvd (al k : Nat) (hdvd : 2 ^ k ∣ al) (hal : 0 < al) :
    ∀ (l : List (FlatItem × Nat)) (tbl : Bytes),
      ∀ off ∈ (pdLoop al l tbl).1.map (fun it => it.2.2), 2 ^ k ∣ off := by
  intro l
  induction l with
  | nil =>
    intro tbl off hoff
    simp [pdLoop] at hoff
  | cons it rest ih =>
    intro tbl off hoff
    simp only [pdLoop, List.map_cons, List.mem_cons] at hoff
    rcases hoff with hoff | hoff
    · subst hoff
      have hlen : (tbl ++ List.replicate (round_up tbl.length al - tbl.length) 0).length =
          round_up tbl.length al := by
        have := round_up_ge tbl.length al
        simp only [List.length_append, List.length_replicate]
        omega
      rw [hlen]
      exact round_up_dvd tbl.length al k hdvd hal
    · exact ih _ off hoff

theorem headerOf_length (a : Archive) (dso : Nat) :
    (headerOf a dso).length =
      0x20 + 0x10 * fileCountOf a + 0x08 + (nameTableOf a).length := by
  simp only [headerOf, List.length_append, sarcHead_length, sfatHead_length,
    sfntHead_length, sfatTable_length, filesOf_length]
  try omega

theorem minDataOffset_le_eff (a : Archive) (dso : Nat) :
    minDataOffset a ≤ effDataOffset a dso := by
  simp only [effDataOffset]
  split
  · exact le_trans (Nat.le_max_left _ _) (round_up_ge _ _)
  · exact Nat.le_max_left _ _

theorem headerOf_le_eff (a : Archive) (dso : Nat) :
    (headerOf a dso).length ≤ effDataOffset a dso := by
  rw [headerOf_length]
  calc 0x20 + 0x10 * fileCountOf a + 0x08 + (nameTableOf a).length
      ≤ minDataOffset a := round_up_ge _ _
  _ ≤ effDataOffset a dso := minDataOffset_le_eff a dso

/-- The total length of the produced buffer is exactly the data-start
offset plus the padded payload table's length. -/
theorem save_length (a : Archive) (dso : Nat) :
    (save a dso).length = effDataOffset a dso + (payloadTableOf a dso).length := by
  have hle := headerOf_le_eff a dso
  simp only [save, List.length_append]
  split
  · rw [List.length_replicate]
    omega
  · rename_i hgt
    push_neg at hgt
    simp only [List.length_nil]
    omega

theorem sarcHead_total_slice (e : Endian) (total dso : Nat) :
    slice (sarcHead e total dso) 8 12 = packU32 e total := by
  cases e <;> rfl

/-- Claim C9 (amended): every recorded payload start offset (relative to
the data-start offset) is a multiple of every power of two dividing the
derived alignment — in particular of the largest power of two dividing
it, though not necessarily of the alignment itself when that is not a
power of two; and the produced buffer's length equals the data-start
offset plus the padded payload table length exactly, which (for archives
small enough for the 32-bit field, below `2^32` bytes) is also the value
stored in the header's total-length field. -/
theorem payload_alignment (a : Archive) (dso : Nat) :
    (∀ k, 2 ^ k ∣ alignOf (effDataOffset a dso) →
      0 < alignOf (effDataOffset a dso) →
      ∀ off ∈ payloadOffsetsOf a dso, 2 ^ k ∣ off) ∧
    (save a dso).length = effDataOffset a dso + (payloadTableOf a dso).length ∧
    (totalLenOf a dso < 2 ^ 32 →
      readU32 a.endianness (save a dso) 8 = some (save a dso).length) := by
  refine ⟨?_, save_length a dso, ?_⟩
  · intro k hdvd hal off hoff
    exact pdLoop_offsets_dvd (alignOf (effDataOffset a dso)) k hdvd hal _ [] off hoff
  · intro hlt
    have hsl : (save a dso).length = totalLenOf a dso := by
      rw [save_length]
      rfl
    rw [hsl]
    unfold readU32
    simp only [save, headerOf, List.append_assoc]
    rw [slice_append_left _ _ 8 12 (by rw [sarcHead_length]; omega),
      sarcHead_total_slice, unpack4_packU32]
    congr 1
    have h32 : totalLenOf a dso < 4294967296 := by
      have := hlt
      norm_num at this
      exact this
    exact Nat.mod_eq_of_lt h32

/-- The two-file archive, flattened (used to evaluate witnesses). -/
theorem twoFiles_sorted :
    sortedFiles twoFiles = [(['a'], [2]), (['b'], [1])] := by
  have hf : flatten twoFiles.contents = [(['b'], [1]), (['a'], [2])] := by
    simp [twoFiles, flatten]
  unfold sortedFiles
  rw [hf]
  decide

/-- Witness for C9 on the concrete two-file archive. -/
theorem payload_alignment_witness :
    ((2 : Nat) ^ 4 ∣ alignOf (effDataOffset twoFiles 0) ∧
      0 < alignOf (effDataOffset twoFiles 0) ∧
      0 ∈ payloadOffsetsOf twoFiles 0 ∧ (2 : Nat) ^ 4 ∣ 0) ∧
    (totalLenOf twoFiles 0 < 2 ^ 32 ∧
      readU32 twoFiles.endianness (save twoFiles 0) 8 =
        some (save twoFiles 0).length) := by
  have hs := twoFiles_sorted
  have hA : (2 : Nat) ^ 4 ∣ alignOf (effDataOffset twoFiles 0) := by
    unfold effDataOffset minDataOffset fileCountOf nameTableOf
    rw [hs]
    decide
  have hB : 0 < alignOf (effDataOffset twoFiles 0) := by
    unfold effDataOffset minDataOffset fileCountOf nameTableOf
    rw [hs]
    decide
  have hC : 0 ∈ payloadOffsetsOf twoFiles 0 := by
    unfold payloadOffsetsOf filesOf effDataOffset minDataOffset fileCountOf nameTableOf
    rw [hs]
    decide
  have hT : totalLenOf twoFiles 0 < 2 ^ 32 := by
    unfold totalLenOf payloadTableOf effDataOffset minDataOffset fileCountOf nameTableOf
    rw [hs]
    decide
  exact ⟨⟨hA, hB, hC, (payload_alignment twoFiles 0).1 4 hA hB 0 hC⟩,
    hT, (payload_alignment twoFiles 0).2.2 hT⟩

/-- An archive whose encoder run derives the non-power-of-two alignment
`0x30`: two root files, the first with `0x31` bytes of data. -/
def alignedTrap : Archive :=
  { contents := [.file ['a'] (List.replicate 0x31 0), .file ['b'] [9]],
    endianness := .big, hashMultiplier := 0x65 }

theorem alignedTrap_sorted :
    sortedFiles alignedTrap = [(['a'], List.replicate 0x31 0), (['b'], [9])] := by
  have hf : flatten alignedTrap.contents =
      [(['a'], List.replicate 0x31 0), (['b'], [9])] := by
    simp [alignedTrap, flatten]
  unfold sortedFiles
  rw [hf]
  decide

/-- Claim C9 (counterexample): with requested offset `0x130` the encoder
of `alignedTrap` derives alignment `0x30` and records the second payload
at offset `0x40`, which is not a multiple of `0x30`. -/
theorem payload_alignment_counterexample :
    payloadOffsetsOf alignedTrap 0x130 = [0, 0x40] ∧
    alignOf (effDataOffset alignedTrap 0x130) = 0x30 ∧
    ¬ ((0x30 : Nat) ∣ 0x40) := by
  have hs := alignedTrap_sorted
  refine ⟨?_, ?_, by decide⟩
  · unfold payloadOffsetsOf filesOf effDataOffset minDataOffset fileCountOf nameTableOf
    rw [hs]
    decide
  · unfold effDataOffset minDataOffset fileCountOf nameTableOf
    rw [hs]
    decide

/-! ## Claim C1: round trip. Tree-side lemmas -/

theorem splitSlash_ne_nil (p : List Char) : splitSlash p ≠ [] := by
  induction p with
  | nil => simp [splitSlash]
  | cons c cs ih =>
    unfold splitSlash
    split
    · simp
    · match h : splitSlash cs with
      | s :: r => simp
      | [] => exact absurd h ih

/-- `join` is a left inverse of `split`: rejoining the `'/'`-separated
segments of any string gives the string back. -/
theorem joinPath_splitSlash (p : List Char) : joinPath (splitSlash p) = p := by
  induction p with
  | nil => rfl
  | cons c cs ih =>
    unfold splitSlash
    split
    · rename_i hc
      subst hc
      match h : splitSlash cs with
      | [] => exact absurd h (splitSlash_ne_nil cs)
      | s :: r =>
        rw [h] at ih
        cases r with
        | nil =>
          simp only [joinPath] at ih ⊢
          rw [ih]
          rfl
        | cons r0 rs =>
          simp only [joinPath] at ih ⊢
          rw [ih]
          rfl
    · rename_i hc
      match h : splitSlash cs with
      | [] => exact absurd h (splitSlash_ne_nil cs)
      | s :: r =>
        rw [h] at ih
        cases r with
        | nil =>
          simp only [joinPath] at ih ⊢
          rw [ih]
        | cons r0 rs =>
          simp only [joinPath] at ih ⊢
          rw [List.cons_append, ih]

theorem contentsPaths_append (A B : List Entry) :
    contentsPaths (A ++ B) = contentsPaths A ++ contentsPaths B := by
  induction A using contentsPaths.induct with
  | case1 => simp [contentsPaths]
  | case2 n d es ih =>
    simp only [List.cons_append, contentsPaths, ih]
  | case3 n sub es ih1 ih2 =>
    simp only [List.cons_append, contentsPaths, ih2, List.append_assoc]

/-- Descending into (or creating) the folder `n` and applying an
insertion `k` that adds the pair `(X, d)` adds `(n ++ '/' ++ X, d)` to
the container's path multiset. -/
theorem modifyFolder_paths (n : List Char) (k : List Entry → List Entry)
    (X : List Char) (d : List Nat)
    (hk : ∀ sub, (contentsPaths (k sub)).Perm ((X, d) :: contentsPaths sub)) :
    ∀ cs, (contentsPaths (modifyFolder n k cs)).Perm
      ((n ++ '/' :: X, d) :: contentsPaths cs) := by
  intro cs
  induction cs with
  | nil =>
    show (contentsPaths [.folder n (k [])]).Perm _
    simp only [contentsPaths, List.append_nil]
    have h := (hk []).map (fun pd => (n ++ '/' :: pd.1, pd.2))
    simpa [contentsPaths] using h
  | cons e es ihc =>
    cases e with
    | file m fd =>
      show (contentsPaths (.file m fd :: modifyFolder n k es)).Perm _
      simp only [contentsPaths]
      exact (ihc.cons _).trans (List.Perm.swap _ _ _)
    | folder m sub =>
      by_cases hm : m = n
      · subst hm
        simp only [modifyFolder, if_pos rfl, if_true, contentsPaths]
        have h2 := ((hk sub).map
          (fun pd => (m ++ '/' :: pd.1, pd.2))).append_right (contentsPaths es)
        refine h2.trans ?_
        simp only [List.map_cons]
        rfl
      · simp only [modifyFolder, if_neg hm, contentsPaths]
        refine (List.Perm.append_left _ ihc).trans ?_
        exact List.perm_middle
  
/-- Inserting one split path adds exactly that (path, data) pair to the
tree's path multiset. -/
theorem insertSegs_paths : ∀ (segs : List (List Char)) (d : List Nat)
    (cs : List Entry), segs ≠ [] →
    (contentsPaths (insertSegs segs d cs)).Perm
      ((joinPath segs, d) :: contentsPaths cs) := by
  intro segs
  induction segs with
  | nil => intro d cs h; exact absurd rfl h
  | cons n rest ih =>
    intro d cs _
    cases rest with
    | nil =>
      show (contentsPaths (cs ++ [.file n d])).Perm ((joinPath [n], d) :: contentsPaths cs)
      rw [contentsPaths_append]
      simp only [contentsPaths, joinPath]
      exact List.perm_append_comm
    | cons r0 rs =>
      show (contentsPaths (modifyFolder n (insertSegs (r0 :: rs) d) cs)).Perm _
      have hjoin : joinPath (n :: r0 :: rs) = n ++ '/' :: joinPath (r0 :: rs) := rfl
      rw [hjoin]
      exact modifyFolder_paths n _ (joinPath (r0 :: rs)) d
        (fun sub => ih d sub (by simp)) cs

/-! ## Claim C1: the flattened list is the canonical path list -/

theorem wfName_spec (n : List Char) (h : wfName n = true) :
    ∀ c ∈ n, c ≠ '/' ∧ c ≠ '\\' ∧ c.toNat ≠ 0 := by
  intro c hc
  unfold wfName at h
  rw [List.all_eq_true] at h
  have := h c hc
  simp only [Bool.and_eq_true, decide_eq_true_eq] at this
  exact ⟨this.1.1, this.1.2, this.2⟩

theorem normSlash_eq_self (p : List Char) (h : ∀ c ∈ p, c ≠ '\\') :
    normSlash p = p := by
  unfold normSlash
  induction p with
  | nil => rfl
  | cons c cs ih =>
    rw [List.map_cons, if_neg (h c (by simp)), ih (fun c hc => h c (by simp [hc]))]

theorem slashify_of_wfName (p n : List Char) (hne : n ≠ [])
    (hn : ∀ c ∈ n, c ≠ '/') : slashify (p ++ n) = p ++ n ++ ['/'] := by
  unfold slashify
  rw [if_pos]
  rw [List.getLast?_append_of_ne_nil p hne,
    List.getLast?_eq_getLast n hne]
  intro hcontra
  have hmem := List.getLast_mem hne
  have := hn (n.getLast hne) hmem
  injection hcontra with hcontra'
  exact this hcontra'

theorem flatList_eq : ∀ (cs : List Entry) (p : List Char),
    wfNames cs = true → (∀ c ∈ p, c ≠ '\\') →
    flatList cs p = (contentsPaths cs).map (fun pd => (p ++ pd.1, pd.2)) := by
  intro cs p
  induction cs, p using flatList.induct with
  | case1 p =>
    intro _ _
    simp [flatList, contentsPaths]
  | case2 n d es p ih =>
    intro hwf hbs
    obtain ⟨hwfn, hwfes⟩ : wfName n = true ∧ wfNames es = true := by
      simpa [wfNames] using hwf
    simp only [flatList, contentsPaths, List.map_cons]
    rw [ih hwfes hbs]
  | case3 n sub es p ih1 ih2 =>
    intro hwf hbs
    have h0 : ((¬n = [] ∧ wfName n = true) ∧ wfNames sub = true) ∧
        wfNames es = true := by
      simpa [wfNames] using hwf
    obtain ⟨⟨⟨hne, hwfn⟩, hwfsub⟩, hwfes⟩ := h0
    have hn := wfName_spec n hwfn
    have hnorm : normSlash (p ++ n) = p ++ n := by
      apply normSlash_eq_self
      intro c hc
      rcases List.mem_append.1 hc with h | h
      · exact hbs c h
      · exact (hn c h).2.1
    have hslash : slashify (normSlash (p ++ n)) = p ++ n ++ ['/'] := by
      rw [hnorm]
      exact slashify_of_wfName p n hne (fun c hc => (hn c hc).1)
    have hbs' : ∀ c ∈ slashify (normSlash (p ++ n)), c ≠ '\\' := by
      rw [hslash]
      intro c hc
      rcases List.mem_append.1 hc with h | h
      · rcases List.mem_append.1 h with h2 | h2
        · exact hbs c h2
        · exact (hn c h2).2.1
      · simp only [List.mem_singleton] at h
        subst h
        decide
    have h1 := ih1 hwfsub hbs'
    rw [hslash] at h1
    have h2 := ih2 hwfes hbs
    simp only [flatList, contentsPaths, List.map_append, List.map_map]
    rw [hslash, h1, h2]
    congr 1
    apply List.map_congr_left
    intro pd _
    simp [List.append_assoc]

/-- Under well-formed names, `save`'s flattening produces exactly the
canonical full slash-delimited paths of the tree. -/
theorem flatten_eq (cs : List Entry) (hwf : wfNames cs = true) :
    flatten cs = contentsPaths cs := by
  induction cs using flatten.induct with
  | case1 => simp [flatten, contentsPaths]
  | case2 n d es ih =>
    obtain ⟨hwfn, hwfes⟩ : wfName n = true ∧ wfNames es = true := by
      simpa [wfNames] using hwf
    simp only [flatten, contentsPaths]
    rw [ih hwfes]
  | case3 n sub es ih =>
    have h0 : ((¬n = [] ∧ wfName n = true) ∧ wfNames sub = true) ∧
        wfNames es = true := by
      simpa [wfNames] using hwf
    obtain ⟨⟨⟨hne, hwfn⟩, hwfsub⟩, hwfes⟩ := h0
    have hn := wfName_spec n hwfn
    have hnorm : normSlash n = n := normSlash_eq_self n (fun c hc => (hn c hc).2.1)
    have hslash : slashify (normSlash n) = n ++ ['/'] := by
      rw [hnorm]
      have h := slashify_of_wfName [] n hne (fun c hc => (hn c hc).1)
      simpa using h
    simp only [flatten, contentsPaths]
    rw [hslash, flatList_eq sub (n ++ ['/']) hwfsub ?hbs, ih hwfes]
    case hbs =>
      intro c hc
      rcases List.mem_append.1 hc with h | h
      · exact (hn c h).2.1
      · simp only [List.mem_singleton] at h
        subst h
        decide
    congr 1
    apply List.map_congr_left
    intro pd _
    simp [List.append_assoc]

/-- Canonical paths of a well-formed tree contain no NUL character. -/
theorem contentsPaths_no_nul (cs : List Entry) (hwf : wfNames cs = true) :
    ∀ pd ∈ contentsPaths cs, ∀ c ∈ pd.1, c.toNat ≠ 0 := by
  induction cs using contentsPaths.induct with
  | case1 =>
    intro pd hpd
    simp [contentsPaths] at hpd
  | case2 n d es ih =>
    obtain ⟨hwfn, hwfes⟩ : wfName n = true ∧ wfNames es = true := by
      simpa [wfNames] using hwf
    intro pd hpd
    simp only [contentsPaths, List.mem_cons] at hpd
    rcases hpd with hpd | hpd
    · subst hpd
      intro c hc
      exact (wfName_spec n hwfn c hc).2.2
    · exact ih hwfes pd hpd
  | case3 n sub es ih1 ih2 =>
    have h0 : ((¬n = [] ∧ wfName n = true) ∧ wfNames sub = true) ∧
        wfNames es = true := by
      simpa [wfNames] using hwf
    obtain ⟨⟨⟨hne, hwfn⟩, hwfsub⟩, hwfes⟩ := h0
    intro pd hpd
    simp only [contentsPaths, List.mem_append, List.mem_map] at hpd
    rcases hpd with ⟨q, hq, hpd⟩ | hpd
    · subst hpd
      intro c hc
      simp only [List.mem_append, List.mem_cons] at hc
      rcases hc with h | h | h
      · exact (wfName_spec n hwfn c h).2.2
      · subst h
        decide
      · exact ih1 hwfsub q hq c h
    · exact ih2 hwfes pd hpd

/-! ## Claim C1: name-table and payload-table structure -/

theorem ntLoop_table_ext (l : List FlatItem) : ∀ tbl : Bytes,
    ∃ r, (ntLoop l tbl).2 = tbl ++ r := by
  induction l with
  | nil =>
    intro tbl
    exact ⟨[], by simp [ntLoop]⟩
  | cons it rest ih =>
    intro tbl
    simp only [ntLoop]
    obtain ⟨r, hr⟩ := ih ((tbl ++ utf8Str it.1) ++
      List.replicate (0x04 - (tbl ++ utf8Str it.1).length % 0x04) 0)
    refine ⟨utf8Str it.1 ++
      List.replicate (0x04 - (tbl ++ utf8Str it.1).length % 0x04) 0 ++ r, ?_⟩
    rw [hr]
    simp [List.append_assoc]

theorem ntLoop_entries (l : List FlatItem) : ∀ tbl : Bytes,
    tbl.length % 4 = 0 →
    ∀ x ∈ (ntLoop l tbl).1,
      x.2 % 4 = 0 ∧ x.2 < (ntLoop l tbl).2.length ∧
      ∃ suffix, (ntLoop l tbl).2.drop x.2 = utf8Str x.1.1 ++ 0 :: suffix := by
  induction l with
  | nil =>
    intro tbl _ x hx
    simp [ntLoop] at hx
  | cons it rest ih =>
    intro tbl htbl x hx
    have hpad : 1 ≤ 0x04 - (tbl ++ utf8Str it.1).length % 0x04 ∧
        0x04 - (tbl ++ utf8Str it.1).length % 0x04 ≤ 4 := by
      omega
    have ht2 : ((tbl ++ utf8Str it.1) ++
        List.replicate (0x04 - (tbl ++ utf8Str it.1).length % 0x04) 0).length % 4 = 0 := by
      simp only [List.length_append, List.length_replicate]
      omega
    simp only [ntLoop, List.mem_cons] at hx ⊢
    rcases hx with hx | hx
    · subst hx
      obtain ⟨r, hr⟩ := ntLoop_table_ext rest ((tbl ++ utf8Str it.1) ++
        List.replicate (0x04 - (tbl ++ utf8Str it.1).length % 0x04) 0)
      refine ⟨htbl, ?_, ?_⟩
      · rw [hr]
        simp only [List.length_append, List.length_replicate]
        omega
      · rw [hr]
        have hk : 0x04 - (tbl ++ utf8Str it.1).length % 0x04 =
            (0x03 - (tbl ++ utf8Str it.1).length % 0x04) + 1 := by
          omega
        rw [hk]
        refine ⟨List.replicate (0x03 - (tbl ++ utf8Str it.1).length % 0x04) 0 ++ r, ?_⟩
        rw [List.append_assoc, List.append_assoc,
          List.drop_append_of_le_length (by omega),
          List.drop_eq_nil_of_le (by omega), List.nil_append]
        simp [List.replicate_succ]
    · exact ih _ ht2 x hx

theorem pdLoop_table_ext (al : Nat) (l : List (FlatItem × Nat)) : ∀ tbl : Bytes,
    ∃ r, (pdLoop al l tbl).2 = tbl ++ r := by
  induction l with
  | nil =>
    intro tbl
    exact ⟨[], by simp [pdLoop]⟩
  | cons it rest ih =>
    intro tbl
    simp only [pdLoop]
    obtain ⟨r, hr⟩ := ih ((tbl ++ List.replicate (round_up tbl.length al - tbl.length) 0) ++
      it.1.2)
    refine ⟨List.replicate (round_up tbl.length al - tbl.length) 0 ++ it.1.2 ++ r, ?_⟩
    rw [hr]
    simp [List.append_assoc]

theorem pdLoop_entries (al : Nat) (l : List (FlatItem × Nat)) : ∀ tbl : Bytes,
    ∀ x ∈ (pdLoop al l tbl).1,
      slice (pdLoop al l tbl).2 x.2.2 (x.2.2 + x.1.2.length) = x.1.2 ∧
      x.2.2 + x.1.2.length ≤ (pdLoop al l tbl).2.length := by
  induction l with
  | nil =>
    intro tbl x hx
    simp [pdLoop] at hx
  | cons it rest ih =>
    intro tbl x hx
    simp only [pdLoop, List.mem_cons] at hx ⊢
    rcases hx with hx | hx
    · subst hx
      dsimp only
      obtain ⟨r, hr⟩ := pdLoop_table_ext al rest
        ((tbl ++ List.replicate (round_up tbl.length al - tbl.length) 0) ++ it.1.2)
      constructor
      · rw [hr]
        unfold slice
        rw [List.append_assoc, List.drop_append_of_le_length (by omega),
          List.drop_eq_nil_of_le (by omega), List.nil_append,
          Nat.add_sub_cancel_left, List.take_append_of_le_length (by omega),
          List.take_length]
      · rw [hr]
        simp only [List.length_append]
        omega
    · exact ih _ x hx

/-- `takeWhile (≠ 0)` of a NUL-terminated block isolates the block. -/
theorem takeWhile_until_nul (A B : Bytes) (hA : ∀ b ∈ A, b ≠ 0) :
    (A ++ 0 :: B).takeWhile (fun b => b != 0) = A := by
  induction A with
  | nil => simp [List.takeWhile]
  | cons a as ih =>
    have ha : a ≠ 0 := hA a (by simp)
    simp only [List.cons_append, List.takeWhile_cons]
    rw [if_pos (by simpa using ha), ih (fun b hb => hA b (by simp [hb]))]

theorem or_two_pow_eq_add (x n : Nat) (h : x < 2 ^ n) : x ||| 2 ^ n = x + 2 ^ n := by
  apply Nat.eq_of_testBit_eq
  intro i
  rw [Nat.testBit_or, (by omega : x + 2 ^ n = 2 ^ n * 1 + x),
    Nat.testBit_mul_pow_two_add 1 h i]
  by_cases hik : i < n
  · rw [if_pos hik, Nat.testBit_two_pow_of_ne (by omega), Bool.or_false]
  · rw [if_neg hik,
      Nat.testBit_lt_two_pow (lt_of_lt_of_le h (Nat.pow_le_pow_right (by omega)
        (Nat.le_of_not_lt hik))),
      Nat.testBit_two_pow, Bool.false_or,
      (by norm_num : (1 : Nat) = 2 ^ 0), Nat.testBit_two_pow]
    rw [decide_eq_decide]
    omega

/-! ## Claim C1: reading the saved buffer back -/

theorem getElem_append_add (P Q : Bytes) (i : Nat) :
    (P ++ Q)[P.length + i]? = Q[i]? := by
  rw [List.getElem?_append_right (by omega)]
  congr 1
  omega

/-- A slice that starts past the left part of an append. -/
theorem slice_of_append (A B : Bytes) (i j : Nat) (hi : A.length ≤ i) :
    slice (A ++ B) i j = slice B (i - A.length) (j - A.length) := by
  unfold slice
  rw [List.drop_append_eq_append_drop, List.drop_eq_nil_of_le hi, List.nil_append]
  congr 1
  omega

/-- The flag byte of a big-endian SFAT record (position 4) is `1`: it is
the top byte of `nameOff // 4 | 0x1000000`. -/
theorem sfatRecord_flag_big (m : Nat) (it : FlatItem × Nat × Nat) (X : Bytes)
    (hw : it.2.1 / 4 < 2 ^ 24) :
    (sfatRecord Endian.big m it ++ X)[4]? = some 1 := by
  have hv : it.2.1 / 4 ||| 0x1000000 = it.2.1 / 4 + 0x1000000 := by
    have h := or_two_pow_eq_add (it.2.1 / 4) 24 hw
    norm_num at h
    exact h
  have h4 : (sfatRecord Endian.big m it ++ X)[4]? =
      some ((it.2.1 / 4 ||| 0x1000000) / 0x1000000 % 0x100) := rfl
  rw [h4, hv]
  congr 1
  omega

/-- The flag byte of a little-endian SFAT record (position 7) is `1`. -/
theorem sfatRecord_flag_little (m : Nat) (it : FlatItem × Nat × Nat) (X : Bytes)
    (hw : it.2.1 / 4 < 2 ^ 24) :
    (sfatRecord Endian.little m it ++ X)[7]? = some 1 := by
  have hv : it.2.1 / 4 ||| 0x1000000 = it.2.1 / 4 + 0x1000000 := by
    have h := or_two_pow_eq_add (it.2.1 / 4) 24 hw
    norm_num at h
    exact h
  have h7 : (sfatRecord Endian.little m it ++ X)[7]? =
      some ((it.2.1 / 4 ||| 0x1000000) / 0x1000000 % 0x100) := rfl
  rw [h7, hv]
  congr 1
  omega

/-- The three name-offset bytes of a big-endian record, zero-extended on
the left, decode back to the stored word index. -/
theorem sfatRecord_name_big (m : Nat) (it : FlatItem × Nat × Nat) (X : Bytes)
    (hw : it.2.1 / 4 < 2 ^ 24) :
    unpack4 Endian.big (0 :: slice (sfatRecord Endian.big m it ++ X) 5 8) =
      some (it.2.1 / 4) := by
  have hv : it.2.1 / 4 ||| 0x1000000 = it.2.1 / 4 + 0x1000000 := by
    have h := or_two_pow_eq_add (it.2.1 / 4) 24 hw
    norm_num at h
    exact h
  have h : unpack4 Endian.big (0 :: slice (sfatRecord Endian.big m it ++ X) 5 8) =
      some (((0 * 0x100 + (it.2.1 / 4 ||| 0x1000000) / 0x10000 % 0x100) * 0x100 +
        (it.2.1 / 4 ||| 0x1000000) / 0x100 % 0x100) * 0x100 +
        (it.2.1 / 4 ||| 0x1000000) % 0x100) := rfl
  rw [h, hv]
  congr 1
  omega

/-- The three name-offset bytes of a little-endian record, zero-extended
on the right, decode back to the stored word index. -/
theorem sfatRecord_name_little (m : Nat) (it : FlatItem × Nat × Nat) (X : Bytes)
    (hw : it.2.1 / 4 < 2 ^ 24) :
    unpack4 Endian.little (slice (sfatRecord Endian.little m it ++ X) 4 7 ++ [0]) =
      some (it.2.1 / 4) := by
  have hv : it.2.1 / 4 ||| 0x1000000 = it.2.1 / 4 + 0x1000000 := by
    have h := or_two_pow_eq_add (it.2.1 / 4) 24 hw
    norm_num at h
    exact h
  have h : unpack4 Endian.little (slice (sfatRecord Endian.little m it ++ X) 4 7 ++ [0]) =
      some (((0 * 0x100 + (it.2.1 / 4 ||| 0x1000000) / 0x10000 % 0x100) * 0x100 +
        (it.2.1 / 4 ||| 0x1000000) / 0x100 % 0x100) * 0x100 +
        (it.2.1 / 4 ||| 0x1000000) % 0x100) := rfl
  rw [h, hv]
  congr 1
  omega

/-- Bytes 8–11 of a record decode to the payload start offset. -/
theorem sfatRecord_ds (e : Endian) (m : Nat) (it : FlatItem × Nat × Nat) (X : Bytes)
    (hd : it.2.2 + it.1.2.length < 2 ^ 32) :
    unpack4 e (slice (sfatRecord e m it ++ X) 8 12) = some it.2.2 := by
  have h : slice (sfatRecord e m it ++ X) 8 12 = packU32 e it.2.2 := by
    cases e <;> rfl
  rw [h, unpack4_packU32]
  congr 1
  norm_num
  omega

/-- Bytes 12–15 of a record decode to the payload end offset. -/
theorem sfatRecord_de (e : Endian) (m : Nat) (it : FlatItem × Nat × Nat) (X : Bytes)
    (hd : it.2.2 + it.1.2.length < 2 ^ 32) :
    unpack4 e (slice (sfatRecord e m it ++ X) 12 16) =
      some (it.2.2 + it.1.2.length) := by
  have h : slice (sfatRecord e m it ++ X) 12 16 =
      packU32 e (it.2.2 + it.1.2.length) := by
    cases e <;> rfl
  rw [h, unpack4_packU32]
  congr 1
  norm_num
  omega

/-- Reading one SFAT record inside `loadNodes`: the flag is `1`, the
name-table word index, payload start, and payload length come back
exactly. -/
theorem loadNodes_record (e : Endian) (m : Nat) (it : FlatItem × Nat × Nat)
    (P X : Bytes) (count : Nat)
    (hw : it.2.1 / 4 < 2 ^ 24) (hd : it.2.2 + it.1.2.length < 2 ^ 32) :
    loadNodes e (P ++ (sfatRecord e m it ++ X)) (count + 1) P.length =
      (loadNodes e (P ++ (sfatRecord e m it ++ X)) count (P.length + 0x10)).bind
        (fun rest => some ((1, it.2.1 / 4, it.2.2, it.1.2.length) :: rest)) := by
  have h58 : P.length + 5 + 3 = P.length + 8 := by omega
  have h47 : P.length + 4 + 3 = P.length + 7 := by omega
  cases e
  case big =>
    simp only [loadNodes]
    rw [getElem_append_add, sfatRecord_flag_big m it X hw]
    simp only [Option.bind_eq_bind, Option.some_bind]
    rw [h58, slice_append_shift P _ 5 8 P.length rfl,
      sfatRecord_name_big m it X hw]
    simp only [Option.some_bind]
    rw [slice_append_shift P _ 8 12 P.length rfl, sfatRecord_ds Endian.big m it X hd]
    simp only [Option.some_bind]
    rw [slice_append_shift P _ 12 16 P.length rfl, sfatRecord_de Endian.big m it X hd]
    simp only [Option.some_bind, Nat.add_sub_cancel_left, Option.pure_def]
  case little =>
    simp only [loadNodes]
    rw [getElem_append_add, sfatRecord_flag_little m it X hw]
    simp only [Option.bind_eq_bind, Option.some_bind]
    rw [h47, slice_append_shift P _ 4 7 P.length rfl,
      sfatRecord_name_little m it X hw]
    simp only [Option.some_bind]
    rw [slice_append_shift P _ 8 12 P.length rfl, sfatRecord_ds Endian.little m it X hd]
    simp only [Option.some_bind]
    rw [slice_append_shift P _ 12 16 P.length rfl, sfatRecord_de Endian.little m it X hd]
    simp only [Option.some_bind, Nat.add_sub_cancel_left, Option.pure_def]

/-- `loadNodes` over a full SFAT table placed after an arbitrary prefix
recovers every node. -/
theorem loadNodes_spec (e : Endian) (m : Nat) (its : List (FlatItem × Nat × Nat)) :
    ∀ P S : Bytes,
    (∀ it ∈ its, it.2.1 / 4 < 2 ^ 24) →
    (∀ it ∈ its, it.2.2 + it.1.2.length < 2 ^ 32) →
    loadNodes e (P ++ (sfatTable e m its ++ S)) its.length P.length =
      some (its.map fun it => (1, it.2.1 / 4, it.2.2, it.1.2.length)) := by
  induction its with
  | nil => intro P S _ _; rfl
  | cons it rest ih =>
    intro P S hw hd
    have hT : sfatTable e m (it :: rest) ++ S =
        sfatRecord e m it ++ (sfatTable e m rest ++ S) := by
      rw [sfatTable_cons, List.append_assoc]
    rw [List.length_cons, hT, loadNodes_record e m it P _ rest.length
      (hw it (by simp)) (hd it (by simp))]
    have hre : P ++ (sfatRecord e m it ++ (sfatTable e m rest ++ S)) =
        (P ++ sfatRecord e m it) ++ (sfatTable e m rest ++ S) := by
      rw [List.append_assoc]
    have hlen : P.length + 0x10 = (P ++ sfatRecord e m it).length := by
      rw [List.length_append, sfatRecord_length]
    rw [hre, hlen, ih (P ++ sfatRecord e m it) S (fun x hx => hw x (by simp [hx]))
      (fun x hx => hd x (by simp [hx]))]
    rfl

/-- Every annotated entry of the payload loop comes from an entry of the
name loop, with its name offset unchanged. -/
theorem pdLoop_mem (al : Nat) (l : List (FlatItem × Nat)) : ∀ (tbl : Bytes),
    ∀ x ∈ (pdLoop al l tbl).1, (x.1, x.2.1) ∈ l := by
  induction l with
  | nil =>
    intro tbl x hx
    simp [pdLoop] at hx
  | cons it rest ih =>
    intro tbl x hx
    simp only [pdLoop, List.mem_cons] at hx ⊢
    rcases hx with hx | hx
    · subst hx
      left
      exact Prod.mk.eta
    · right
      exact ih _ x hx

/-- Rebuilding the tree from exactly the nodes the table stores: the
decode succeeds and yields precisely the encoded (path, data) pairs, up
to permutation. -/
theorem addNodes_spec (B : Bytes) (nt dso : Nat) (its : List (FlatItem × Nat × Nat)) :
    ∀ cs : List Entry,
    (∀ it ∈ its, bytesToString B (nt + it.2.1 / 4 * 4) = some it.1.1) →
    (∀ it ∈ its, slice B (dso + it.2.2) (dso + it.2.2 + it.1.2.length) = it.1.2) →
    ∃ cs2, addNodes B nt dso (its.map fun it => (1, it.2.1 / 4, it.2.2, it.1.2.length)) cs =
        some cs2 ∧
      (contentsPaths cs2).Perm ((its.map fun it => (it.1.1, it.1.2)) ++ contentsPaths cs) := by
  induction its with
  | nil =>
    intro cs _ _
    exact ⟨cs, rfl, by simp⟩
  | cons it rest ih =>
    intro cs hname hdata
    have h1 := hname it (by simp)
    have h2 := hdata it (by simp)
    obtain ⟨cs2, hcs2, hperm⟩ := ih (insertSegs (splitSlash it.1.1)
        (slice B (dso + it.2.2) (dso + it.2.2 + it.1.2.length)) cs)
      (fun x hx => hname x (by simp [hx])) (fun x hx => hdata x (by simp [hx]))
    refine ⟨cs2, ?_, ?_⟩
    · rw [List.map_cons]
      simp only [addNodes, Option.bind_eq_bind]
      rw [h1]
      simp only [Option.some_bind]
      exact hcs2
    · have hins := insertSegs_paths (splitSlash it.1.1) it.1.2 cs
        (splitSlash_ne_nil it.1.1)
      rw [joinPath_splitSlash] at hins
      rw [h2] at hperm
      have hfinal : ((it :: rest).map fun x => (x.1.1, x.1.2)) ++ contentsPaths cs =
          (it.1.1, it.1.2) :: ((rest.map fun x => (x.1.1, x.1.2)) ++ contentsPaths cs) := by
        simp
      rw [hfinal]
      exact hperm.trans ((List.Perm.append_left _ hins).trans List.perm_middle)

/-- The saved buffer opens with the SARC magic. -/
theorem sarcHead_read_magic (e : Endian) (t d : Nat) (R : Bytes) :
    slice (sarcHead e t d ++ R) 0 4 = sarcMagic := by
  cases e <;> rfl

/-- Bytes 6–7 of the saved buffer are the byte-order mark. -/
theorem sarcHead_read_bom (e : Endian) (t d : Nat) (R : Bytes) :
    slice (sarcHead e t d ++ R) 6 8 = bomOf e := by
  cases e <;> rfl

/-- The header-length field reads back `0x14`. -/
theorem sarcHead_read_headLen (e : Endian) (t d : Nat) (R : Bytes) :
    unpack2 e (slice (sarcHead e t d ++ R) 4 6) = some 0x14 := by
  cases e <;> rfl

/-- The total-length field reads back the packed total. -/
theorem sarcHead_read_total (e : Endian) (t d : Nat) (R : Bytes) :
    unpack4 e (slice (sarcHead e t d ++ R) 8 0xC) = some (t % 0x100000000) := by
  have h : slice (sarcHead e t d ++ R) 8 0xC = packU32 e t := by
    cases e <;> rfl
  rw [h, unpack4_packU32]

/-- The data-start-offset field reads back the packed offset. -/
theorem sarcHead_read_dso (e : Endian) (t d : Nat) (R : Bytes) :
    unpack4 e (slice (sarcHead e t d ++ R) 0xC 0x10) = some (d % 0x100000000) := by
  have h : slice (sarcHead e t d ++ R) 0xC 0x10 = packU32 e d := by
    cases e <;> rfl
  rw [h, unpack4_packU32]

/-- Bytes 0x14–0x17 are the SFAT magic. -/
theorem sfat_read_magic (e : Endian) (t d N mu : Nat) (R : Bytes) :
    slice (sarcHead e t d ++ (sfatHead e N mu ++ R)) 0x14 0x18 = sfatMagic := by
  cases e <;> rfl

/-- The SFAT header-length field reads back `0x0C`. -/
theorem sfat_read_headLen (e : Endian) (t d N mu : Nat) (R : Bytes) :
    unpack2 e (slice (sarcHead e t d ++ (sfatHead e N mu ++ R)) 0x18 0x1A) =
      some 0x0C := by
  cases e <;> rfl

/-- The node-count field reads back the packed count. -/
theorem sfat_read_count (e : Endian) (t d N mu : Nat) (R : Bytes) :
    unpack2 e (slice (sarcHead e t d ++ (sfatHead e N mu ++ R)) 0x1A 0x1C) =
      some (N % 0x10000) := by
  have h : slice (sarcHead e t d ++ (sfatHead e N mu ++ R)) 0x1A 0x1C =
      packU16 e N := by
    cases e <;> rfl
  rw [h, unpack2_packU16]

/-- The hash-multiplier field reads back the packed multiplier. -/
theorem sfat_read_mult (e : Endian) (t d N mu : Nat) (R : Bytes) :
    unpack4 e (slice (sarcHead e t d ++ (sfatHead e N mu ++ R)) 0x1C 0x20) =
      some (mu % 0x100000000) := by
  have h : slice (sarcHead e t d ++ (sfatHead e N mu ++ R)) 0x1C 0x20 =
      packU32 e mu := by
    cases e <;> rfl
  rw [h, unpack4_packU32]

/-- The four bytes after the SFAT node table are the SFNT magic. -/
theorem sfnt_read_magic (e : Endian) (C R : Bytes) (N : Nat)
    (hC : C.length = 0x20 + 0x10 * N) :
    slice (C ++ (sfntHead e ++ R)) (0x20 + 0x10 * N) (0x20 + 0x10 * N + 4) =
      sfntMagic := by
  rw [slice_of_append _ _ _ _ (by rw [hC]), hC,
    (by omega : 0x20 + 0x10 * N - (0x20 + 0x10 * N) = 0),
    (by omega : 0x20 + 0x10 * N + 4 - (0x20 + 0x10 * N) = 4)]
  cases e <;> rfl

/-- The SFNT header-length field reads back `0x08`. -/
theorem sfnt_read_headLen (e : Endian) (C R : Bytes) (N : Nat)
    (hC : C.length = 0x20 + 0x10 * N) :
    unpack2 e (slice (C ++ (sfntHead e ++ R)) (0x20 + 0x10 * N + 4)
      (0x20 + 0x10 * N + 6)) = some 0x08 := by
  rw [slice_of_append _ _ _ _ (by rw [hC]; omega), hC,
    (by omega : 0x20 + 0x10 * N + 4 - (0x20 + 0x10 * N) = 4),
    (by omega : 0x20 + 0x10 * N + 6 - (0x20 + 0x10 * N) = 6)]
  cases e <;> rfl

/-- `_load` on a buffer with exactly the shape `save` emits: every one of
the eight structural checks passes, the node table is read back via
`loadNodes`, and the archive is rebuilt from the given `addNodes` run. -/
theorem loadStep_assembled (e : Endian) (a0 : Archive) (N mu total eff : Nat)
    (T L padB D : Bytes) (nodes : List (Nat × Nat × Nat × Nat)) (cs : List Entry)
    (B : Bytes)
    (hB : B = sarcHead e total eff ++
      (sfatHead e N mu ++ (T ++ (sfntHead e ++ (L ++ (padB ++ D))))))
    (hN : N < 0x10000) (htot : total < 0x100000000) (heff : eff < 0x100000000)
    (hT : T.length = 0x10 * N)
    (hlen : B.length = total)
    (hnodes : loadNodes e B N 0x20 = some nodes)
    (hadd : addNodes B (0x20 + 0x10 * N + 8) eff nodes [] = some cs) :
    loadStep B a0 =
      some ({ a0 with
                endianness := e
                hashMultiplier := mu % 0x100000000
                contents := cs }, 0) := by
  have hC : ((sarcHead e total eff ++ sfatHead e N mu) ++ T).length =
      0x20 + 0x10 * N := by
    simp only [List.length_append, sarcHead_length, sfatHead_length, hT]
    try omega
  have hassoc : sarcHead e total eff ++
      (sfatHead e N mu ++ (T ++ (sfntHead e ++ (L ++ (padB ++ D))))) =
      ((sarcHead e total eff ++ sfatHead e N mu) ++ T) ++
        (sfntHead e ++ (L ++ (padB ++ D))) := by
    simp [List.append_assoc]
  have hN16 : N % 0x10000 = N := Nat.mod_eq_of_lt hN
  have htot32 : total % 0x100000000 = total := Nat.mod_eq_of_lt htot
  have heff32 : eff % 0x100000000 = eff := Nat.mod_eq_of_lt heff
  subst hB
  simp only [loadStep]
  rw [sarcHead_read_magic, if_neg (by simp)]
  rw [sarcHead_read_bom]
  cases e
  case big =>
    simp only [bomOf]
    rw [sarcHead_read_headLen]
    simp only []
    rw [if_neg (by simp)]
    rw [sarcHead_read_total, htot32]
    simp only []
    rw [if_neg (by simp [hlen])]
    rw [sarcHead_read_dso, heff32]
    simp only []
    rw [sfat_read_magic, if_neg (by simp)]
    rw [sfat_read_headLen]
    simp only []
    rw [if_neg (by simp)]
    rw [sfat_read_count, hN16]
    simp only []
    rw [sfat_read_mult]
    simp only []
    rw [hnodes]
    simp only []
    rw [hassoc] at hadd ⊢
    rw [sfnt_read_magic Endian.big _ _ N hC, if_neg (by simp)]
    rw [sfnt_read_headLen Endian.big _ _ N hC]
    simp only []
    rw [if_neg (by simp)]
    rw [hadd]
  case little =>
    simp only [bomOf]
    rw [sarcHead_read_headLen]
    simp only []
    rw [if_neg (by simp)]
    rw [sarcHead_read_total, htot32]
    simp only []
    rw [if_neg (by simp [hlen])]
    rw [sarcHead_read_dso, heff32]
    simp only []
    rw [sfat_read_magic, if_neg (by simp)]
    rw [sfat_read_headLen]
    simp only []
    rw [if_neg (by simp)]
    rw [sfat_read_count, hN16]
    simp only []
    rw [sfat_read_mult]
    simp only []
    rw [hnodes]
    simp only []
    rw [hassoc] at hadd ⊢
    rw [sfnt_read_magic Endian.little _ _ N hC, if_neg (by simp)]
    rw [sfnt_read_headLen Endian.little _ _ N hC]
    simp only []
    rw [if_neg (by simp)]
    rw [hadd]

/-- Claim C1 (amended): for every tree whose names contain no NUL, `'/'`
or `'\\'` and whose folder names are nonempty (uniqueness of names per
folder, the spec's hypothesis, is kept but is not what makes the round
trip work), within the format's numeric limits — fewer than `2^16` files,
a name table of at most `2^26` bytes, and a total output below `2^32`
bytes — decoding the saved buffer succeeds with return code `0` for
either endianness and rebuilds a tree with exactly the same multiset of
full slash-delimited file paths carrying byte-identical payload data. -/
theorem save_load_roundtrip (a : Archive) (dso : Nat) (a0 : Archive)
    (hwf : wfNames a.contents = true)
    (huq : uniqNames a.contents = true)
    (hcount : fileCountOf a < 0x10000)
    (hnt : (nameTableOf a).length ≤ 0x4000000)
    (htot : totalLenOf a dso < 0x100000000) :
    ∃ cs : List Entry,
      loadStep (save a dso) a0 =
        some ({ a0 with
                  endianness := a.endianness
                  hashMultiplier := a.hashMultiplier % 0x100000000
                  contents := cs }, 0) ∧
      (contentsPaths cs).Perm (contentsPaths a.contents) := by
  have heff_le : effDataOffset a dso ≤ totalLenOf a dso := by
    unfold totalLenOf
    omega
  have heff : effDataOffset a dso < 0x100000000 := lt_of_le_of_lt heff_le htot
  have hmemNT : ∀ x ∈ (ntLoop (sortedFiles a) []).1,
      x.2 % 4 = 0 ∧ x.2 < (nameTableOf a).length ∧
      ∃ suffix, (nameTableOf a).drop x.2 = utf8Str x.1.1 ++ 0 :: suffix :=
    fun x hx => ntLoop_entries (sortedFiles a) [] (by simp) x hx
  have hmemF : ∀ it ∈ filesOf a dso, (it.1, it.2.1) ∈ (ntLoop (sortedFiles a) []).1 := by
    intro it hit
    unfold filesOf at hit
    exact pdLoop_mem _ _ _ it hit
  have hstart : ∀ it ∈ filesOf a dso,
      it.2.1 % 4 = 0 ∧ it.2.1 < (nameTableOf a).length := by
    intro it hit
    have h := hmemNT _ (hmemF it hit)
    exact ⟨h.1, h.2.1⟩
  have hw : ∀ it ∈ filesOf a dso, it.2.1 / 4 < 2 ^ 24 := by
    intro it hit
    have h := (hstart it hit).2
    have hlt : it.2.1 < 0x4000000 := lt_of_lt_of_le h hnt
    omega
  have hplen : (payloadTableOf a dso).length ≤ totalLenOf a dso := by
    unfold totalLenOf
    omega
  have hd : ∀ it ∈ filesOf a dso, it.2.2 + it.1.2.length < 2 ^ 32 := by
    intro it hit
    have h : it.2.2 + it.1.2.length ≤ (payloadTableOf a dso).length :=
      (pdLoop_entries (alignOf (effDataOffset a dso))
        ((ntLoop (sortedFiles a) []).1) [] it
        (by unfold filesOf at hit; exact hit)).2
    have h2 := lt_of_le_of_lt (le_trans h hplen) htot
    norm_num
    exact h2
  set pd := (if effDataOffset a dso > (headerOf a dso).length then
      List.replicate (effDataOffset a dso - (headerOf a dso).length) 0
    else ([] : Bytes)) with hpd
  have hsave : save a dso =
      sarcHead a.endianness (totalLenOf a dso) (effDataOffset a dso) ++
        (sfatHead a.endianness (fileCountOf a) a.hashMultiplier ++
          (sfatTable a.endianness a.hashMultiplier (filesOf a dso) ++
            (sfntHead a.endianness ++
              (nameTableOf a ++ (pd ++ payloadTableOf a dso))))) := by
    rw [hpd]
    simp [save, headerOf, List.append_assoc]
  have hP32 : (sarcHead a.endianness (totalLenOf a dso) (effDataOffset a dso) ++
      sfatHead a.endianness (fileCountOf a) a.hashMultiplier).length = 0x20 := by
    simp [List.length_append, sarcHead_length, sfatHead_length]
  have hsave2 : save a dso =
      (sarcHead a.endianness (totalLenOf a dso) (effDataOffset a dso) ++
        sfatHead a.endianness (fileCountOf a) a.hashMultiplier) ++
        (sfatTable a.endianness a.hashMultiplier (filesOf a dso) ++
          (sfntHead a.endianness ++
            (nameTableOf a ++ (pd ++ payloadTableOf a dso)))) := by
    rw [hsave]
    simp [List.append_assoc]
  have hnodes : loadNodes a.endianness (save a dso) (fileCountOf a) 0x20 =
      some ((filesOf a dso).map fun it => (1, it.2.1 / 4, it.2.2, it.1.2.length)) := by
    have h := loadNodes_spec a.endianness a.hashMultiplier (filesOf a dso)
      (sarcHead a.endianness (totalLenOf a dso) (effDataOffset a dso) ++
        sfatHead a.endianness (fileCountOf a) a.hashMultiplier)
      (sfntHead a.endianness ++ (nameTableOf a ++ (pd ++ payloadTableOf a dso)))
      hw hd
    rw [hP32, filesOf_length] at h
    rw [hsave2]
    exact h
  have hsave3 : save a dso =
      (((sarcHead a.endianness (totalLenOf a dso) (effDataOffset a dso) ++
          sfatHead a.endianness (fileCountOf a) a.hashMultiplier) ++
        sfatTable a.endianness a.hashMultiplier (filesOf a dso)) ++
          sfntHead a.endianness) ++
        (nameTableOf a ++ (pd ++ payloadTableOf a dso)) := by
    rw [hsave]
    simp [List.append_assoc]
  have hA : ((((sarcHead a.endianness (totalLenOf a dso) (effDataOffset a dso) ++
      sfatHead a.endianness (fileCountOf a) a.hashMultiplier) ++
      sfatTable a.endianness a.hashMultiplier (filesOf a dso)) ++
      sfntHead a.endianness)).length = 0x20 + 0x10 * fileCountOf a + 8 := by
    simp only [List.length_append, sarcHead_length, sfatHead_length,
      sfntHead_length, sfatTable_length, filesOf_length]
    try omega
  have hname : ∀ it ∈ filesOf a dso,
      bytesToString (save a dso)
        ((0x20 + 0x10 * fileCountOf a + 8) + it.2.1 / 4 * 4) = some it.1.1 := by
    intro it hit
    have hmul : it.2.1 / 4 * 4 = it.2.1 :=
      Nat.div_mul_cancel (Nat.dvd_of_mod_eq_zero (hstart it hit).1)
    rw [hmul]
    obtain ⟨suffix, hdrop⟩ := (hmemNT _ (hmemF it hit)).2.2
    have hmemS : it.1 ∈ sortedFiles a := by
      rw [← filesOf_map a dso]
      exact List.mem_map_of_mem _ hit
    have hmemC : it.1 ∈ contentsPaths a.contents := by
      have hp := sortFlat_perm a.endianness a.hashMultiplier (flatten a.contents)
      have hmem2 := hp.mem_iff.mp hmemS
      rw [← flatten_eq a.contents hwf]
      exact hmem2
    have hnul : ∀ b ∈ utf8Str it.1.1, b ≠ 0 :=
      utf8Str_ne_zero _ (fun c hc => contentsPaths_no_nul a.contents hwf it.1 hmemC c hc)
    unfold bytesToString
    rw [hsave3, ← hA, List.drop_append,
      List.drop_append_of_le_length (le_of_lt (hstart it hit).2), hdrop,
      List.append_assoc, List.cons_append, takeWhile_until_nul _ _ hnul,
      utf8Decode_utf8Str]
  have hsave4 : save a dso = (headerOf a dso ++ pd) ++ payloadTableOf a dso := by
    rw [hpd]
    simp [save, List.append_assoc]
  have hpadlen : (headerOf a dso ++ pd).length = effDataOffset a dso := by
    have hle := headerOf_le_eff a dso
    rw [hpd]
    by_cases hgt : effDataOffset a dso > (headerOf a dso).length
    · rw [if_pos hgt]
      simp only [List.length_append, List.length_replicate]
      omega
    · rw [if_neg hgt]
      simp only [List.length_append, List.length_nil]
      omega
  have hdata : ∀ it ∈ filesOf a dso,
      slice (save a dso) (effDataOffset a dso + it.2.2)
        (effDataOffset a dso + it.2.2 + it.1.2.length) = it.1.2 := by
    intro it hit
    rw [hsave4,
      (by omega : effDataOffset a dso + it.2.2 + it.1.2.length =
        effDataOffset a dso + (it.2.2 + it.1.2.length)),
      slice_append_shift (headerOf a dso ++ pd) (payloadTableOf a dso) it.2.2
        (it.2.2 + it.1.2.length) (effDataOffset a dso) hpadlen]
    exact (pdLoop_entries (alignOf (effDataOffset a dso))
      ((ntLoop (sortedFiles a) []).1) [] it
      (by unfold filesOf at hit; exact hit)).1
  obtain ⟨cs2, hcs2, hperm⟩ := addNodes_spec (save a dso)
    (0x20 + 0x10 * fileCountOf a + 8) (effDataOffset a dso) (filesOf a dso) []
    hname hdata
  refine ⟨cs2, ?_, ?_⟩
  · exact loadStep_assembled a.endianness a0 (fileCountOf a) a.hashMultiplier
      (totalLenOf a dso) (effDataOffset a dso)
      (sfatTable a.endianness a.hashMultiplier (filesOf a dso)) (nameTableOf a) pd
      (payloadTableOf a dso) _ cs2 (save a dso) hsave hcount htot heff
      (by rw [sfatTable_length, filesOf_length])
      (by rw [save_length]; rfl) hnodes hcs2
  · have h0 : contentsPaths ([] : List Entry) = [] := by simp [contentsPaths]
    rw [h0, List.append_nil] at hperm
    have hmap : ((filesOf a dso).map fun x => (x.1.1, x.1.2)) =
        (filesOf a dso).map (fun x => x.1) := by
      apply List.map_congr_left
      intro x _
      exact Prod.mk.eta
    rw [hmap, filesOf_map] at hperm
    have hp3 : (sortedFiles a).Perm (contentsPaths a.contents) := by
      have hp2 := sortFlat_perm a.endianness a.hashMultiplier (flatten a.contents)
      rw [← flatten_eq a.contents hwf]
      exact hp2
    exact hperm.trans hp3

/-- A little-endian single-file archive for the round-trip witness. -/
def oneFile : Archive := ⟨[.file ['a'] [1, 2, 3]], .little, 0x65⟩

theorem oneFile_sorted : sortedFiles oneFile = [(['a'], [1, 2, 3])] := by
  have hf : flatten oneFile.contents = [(['a'], [1, 2, 3])] := by
    simp [oneFile, flatten]
  unfold sortedFiles
  rw [hf]
  rfl

/-- Witness for C1's amended round trip on a concrete little-endian
archive. -/
theorem save_load_roundtrip_witness :
    wfNames oneFile.contents = true ∧ uniqNames oneFile.contents = true ∧
    fileCountOf oneFile < 0x10000 ∧ (nameTableOf oneFile).length ≤ 0x4000000 ∧
    totalLenOf oneFile 0 < 0x100000000 ∧
    ∃ cs : List Entry,
      loadStep (save oneFile 0) freshArchive =
        some ({ freshArchive with
                  endianness := oneFile.endianness
                  hashMultiplier := oneFile.hashMultiplier % 0x100000000
                  contents := cs }, 0) ∧
      (contentsPaths cs).Perm (contentsPaths oneFile.contents) := by
  have h1 : wfNames oneFile.contents = true := by
    simp [oneFile, wfNames, wfName]
  have h2 : uniqNames oneFile.contents = true := by
    simp [oneFile, uniqNames, entryName]
  have h3 : fileCountOf oneFile < 0x10000 := by
    unfold fileCountOf
    rw [oneFile_sorted]
    decide
  have h4 : (nameTableOf oneFile).length ≤ 0x4000000 := by
    unfold nameTableOf
    rw [oneFile_sorted]
    decide
  have h5 : totalLenOf oneFile 0 < 0x100000000 := by
    simp only [totalLenOf, effDataOffset, minDataOffset, payloadTableOf,
      nameTableOf, fileCountOf, oneFile_sorted]
    decide
  exact ⟨h1, h2, h3, h4, h5, save_load_roundtrip oneFile 0 freshArchive h1 h2 h3 h4 h5⟩

/-- A file whose name contains a NUL byte: names per folder are unique,
so the spec's round-trip hypothesis holds, yet decoding truncates the
name at the NUL. -/
def nulName : Archive := ⟨[.file ['a', Char.ofNat 0, 'b'] [9]], .big, 0x65⟩

set_option maxRecDepth 400000 in
/-- Claim C1 (counterexample): the spec promises the round trip for every
tree with unique names per folder. The tree with the single root file
named `"a\x00b"` satisfies that hypothesis, and decoding its saved buffer
(requested offset `0x50`) succeeds with code `0`, but the name table is
NUL-terminated, so the decoded tree holds the file `"a"` instead: the
path multisets differ. -/
theorem roundtrip_nul_counterexample :
    uniqNames nulName.contents = true ∧
    loadStep (save nulName 0x50) freshArchive =
      some (⟨[.file ['a'] [9]], .big, 0x65⟩, 0) ∧
    ¬ (contentsPaths [Entry.file ['a'] [9]]).Perm (contentsPaths nulName.contents) := by
  refine ⟨?_, ?_, ?_⟩
  · simp [nulName, uniqNames, entryName]
  · have hf : flatten nulName.contents = [(['a', Char.ofNat 0, 'b'], [9])] := by
      simp [nulName, flatten]
    unfold save headerOf totalLenOf payloadTableOf filesOf nameTableOf
      fileCountOf effDataOffset minDataOffset sortedFiles
    rw [hf]
    rfl
  · have hA : contentsPaths [Entry.file ['a'] [9]] = [(['a'], [9])] := by
      simp [contentsPaths]
    have hB : contentsPaths nulName.contents =
        [(['a', Char.ofNat 0, 'b'], [9])] := by
      simp [nulName, contentsPaths]
    rw [hA, hB]
    decide

/-- Claim C2 (code bug): on an empty archive, `set("a/b/c", file)` is
specified to create folders `a` and `a/b`, insert the file as `c`, and
make `get("a/b/c")` return it and `delete("a/b/c")` remove it. The code
instead walks `folderStructure[1:]` (skipping the first segment and
including the last), creating folders `b` and `b/c` and dropping the file
into `b/c` without renaming it, after which both `get` and `delete` on the
same key raise `KeyError`. -/
theorem setItem_path_bug :
    setItem [] ['a', '/', 'b', '/', 'c'] (.file [] [7]) =
      [.folder ['b'] [.folder ['c'] [.file [] [7]]]] ∧
    getItem [.folder ['b'] [.folder ['c'] [.file [] [7]]]] ['a', '/', 'b', '/', 'c'] =
      none ∧
    delItem [.folder ['b'] [.folder ['c'] [.file [] [7]]]] ['a', '/', 'b', '/', 'c'] =
      none := by
  refine ⟨rfl, rfl, rfl⟩

/-- Claim C3 (code bug): `set(path, entry)` is specified to assign the final
path segment as the entry's `name` (when not already set) before inserting
it. The source's `File.name = folderStructure[-1]` assigns a *class*
attribute that every instance shadows, so the inserted entry keeps its
empty name, and a later lookup of the path cannot match it by name. -/
theorem setItem_name_bug :
    setItem [] ['a', '/', 'b', '/', 'c'] (.file [] [9]) =
      [.folder ['b'] [.folder ['c'] [.file [] [9]]]] ∧
    findNamed [.file [] [9]] ['c'] = none := by
  refine ⟨rfl, rfl⟩

end SARC
